import Mathlib

/-!
Verification development for the AMI upgrade tool
(repository simulate-infra-upgrade).

The Go source is embedded shallowly:

* pkg/nodeclasses/nodeclasses.go : the data model of EC2NodeClass records,
  the four-regex AMI-name grammar of ParseAMIName, BuildNodeClassMap and the
  JSON navigation of UpdateNodeClass;
* pkg/amis/amis.go : AMIInfo, VersionItem, the two compiled patterns of
  ExtractVersions, ParseDate, and the version-deduplication fold;
* main.go / the monitoring variant of main : the dry-run plan loop
  (parse, registry lookup, synthesis of the new AMI name) and the display
  predicate handed to the convergence monitor.

Go regular expressions are anchored and simple, so each one is embedded as a
deterministic character-list matcher; soundness and completeness lemmas below
show the matchers agree with the unique decomposition the regex admits.
Strings are compared the way Go compares them (byte-lexicographic, which for
UTF-8 agrees with code-point-lexicographic order).
-/

/-! ## Character-list utilities -/

/-- Longest prefix of characters satisfying P, together with the rest
(the deterministic core of a greedy character-class match). -/
def spanP (P : Char → Bool) : List Char → List Char × List Char
  | [] => ([], [])
  | c :: cs =>
    if P c then
      let r := spanP P cs
      (c :: r.1, r.2)
    else ([], c :: cs)

/-- Strip an expected literal prefix, returning the remainder on success
(the deterministic core of a literal match inside an anchored regex). -/
def dropLit : List Char → List Char → Option (List Char)
  | [], cs => some cs
  | _ :: _, [] => none
  | l :: ls, c :: cs => if c = l then dropLit ls cs else none

/-- Go strings.Split(s, "-") on a character list: splits at every hyphen,
keeping empty segments, and yields one (empty) segment for the empty string. -/
def splitDashL : List Char → List (List Char)
  | [] => [[]]
  | c :: cs =>
    if c = '-' then [] :: splitDashL cs
    else
      match splitDashL cs with
      | [] => [[c]]
      | s :: ss => (c :: s) :: ss

/-- Go byte-lexicographic comparison of strings, on character lists.
For UTF-8 encoded text the byte order agrees with code-point order. -/
def ltCharsb : List Char → List Char → Bool
  | [], [] => false
  | [], _ :: _ => true
  | _ :: _, [] => false
  | a :: as, b :: bs => if a < b then true else if b < a then false else ltCharsb as bs

/-- Go string comparison s < t. -/
def goStrLt (s t : String) : Bool := ltCharsb s.data t.data

/-! ## pkg/nodeclasses: data model -/

/-- One entry of spec.amiSelectorTerms in an EC2NodeClass object. -/
structure AMISelectorTerm where
  Name : String
  Owner : String
deriving DecidableEq, Repr

/-- Metadata of an EC2NodeClass object (only the name is read). -/
structure NCMetadata where
  Name : String
deriving DecidableEq, Repr

/-- Spec of an EC2NodeClass object (only the selector terms are read). -/
structure NCSpec where
  AMISelectorTerms : List AMISelectorTerm
deriving DecidableEq, Repr

/-- EC2NodeClass, a Karpenter node-provisioning declaration. -/
structure EC2NodeClass where
  Metadata : NCMetadata
  Spec : NCSpec
deriving DecidableEq, Repr

/-- NodeClassList, the items returned by the cluster query. -/
structure NodeClassList where
  Items : List EC2NodeClass
deriving DecidableEq, Repr

/-- AMIPattern, the parsed components of an AMI name
(ParseAMIName's result type). -/
structure AMIPattern where
  HasNodegroup : Bool
  Nodegroup : String
  K8sVersion : String
  Version : String
deriving DecidableEq, Repr

/-! ## pkg/nodeclasses: the four anchored regexes of ParseAMIName

Each matcher is the deterministic equivalent of one of the compiled
patterns, in the order the source tries them:

1. domino-eks-([^-]+)-(1\.[0-9]+)-v([0-9]{8})
2. domino-eks-(1\.[0-9]+)-v([0-9]{8})
3. domino-eks-([^-]+)-(1\.[0-9]+)-.*
4. domino-eks-(1\.[0-9]+)-.*

All four are anchored on both sides; [^-] matches any character other than
a hyphen (including newline), while the unrestricted dot of .* matches any
character except newline.
-/

/-- Character list of the literal prefix domino-eks- shared by all patterns. -/
def litPrefix : List Char := "domino-eks-".data

/-- Match of (1\.[0-9]+) at the head of the input followed by the given
continuation handling: returns the captured platform version (as the list
1, dot, digits) and the rest after it. -/
def matchK8s (cs : List Char) : Option (List Char × List Char) :=
  match cs with
  | '1' :: '.' :: cs₁ =>
    let r := spanP Char.isDigit cs₁
    if r.1.isEmpty then none else some ('1' :: '.' :: r.1, r.2)
  | _ => none

/-- Match of -v([0-9]{8}) against the entire remaining input. -/
def matchDateEnd (cs : List Char) : Option (List Char) :=
  match cs with
  | '-' :: 'v' :: ds =>
    if ds.length = 8 && ds.all Char.isDigit then some ds else none
  | _ => none

/-- Pattern 1: domino-eks-([^-]+)-(1\.[0-9]+)-v([0-9]{8}) anchored;
captures (nodegroup, k8s version, date version). -/
def matchGroupVersion (s : List Char) : Option (List Char × List Char × List Char) :=
  match dropLit litPrefix s with
  | none => none
  | some cs =>
    let g := spanP (fun c => c != '-') cs
    if g.1.isEmpty then none
    else
      match g.2 with
      | '-' :: cs₁ =>
        match matchK8s cs₁ with
        | none => none
        | some (p, rest) =>
          match matchDateEnd rest with
          | none => none
          | some d => some (g.1, p, d)
      | _ => none

/-- Pattern 2: domino-eks-(1\.[0-9]+)-v([0-9]{8}) anchored;
captures (k8s version, date version). -/
def matchNoGroupVersion (s : List Char) : Option (List Char × List Char) :=
  match dropLit litPrefix s with
  | none => none
  | some cs =>
    match matchK8s cs with
    | none => none
    | some (p, rest) =>
      match matchDateEnd rest with
      | none => none
      | some d => some (p, d)

/-- Pattern 3: domino-eks-([^-]+)-(1\.[0-9]+)-.* anchored;
captures (nodegroup, k8s version). -/
def matchGroupWildcard (s : List Char) : Option (List Char × List Char) :=
  match dropLit litPrefix s with
  | none => none
  | some cs =>
    let g := spanP (fun c => c != '-') cs
    if g.1.isEmpty then none
    else
      match g.2 with
      | '-' :: cs₁ =>
        match matchK8s cs₁ with
        | none => none
        | some (p, rest) =>
          match rest with
          | '-' :: tail => if tail.all (fun c => c != '\n') then some (g.1, p) else none
          | _ => none
      | _ => none

/-- Pattern 4: domino-eks-(1\.[0-9]+)-.* anchored; captures the k8s version. -/
def matchNoGroupWildcard (s : List Char) : Option (List Char) :=
  match dropLit litPrefix s with
  | none => none
  | some cs =>
    match matchK8s cs with
    | none => none
    | some (p, rest) =>
      match rest with
      | '-' :: tail => if tail.all (fun c => c != '\n') then some p else none
      | _ => none

/-- ParseAMIName from pkg/nodeclasses: tries the four patterns in order
(resolved with nodegroup, resolved without, wildcard with nodegroup,
wildcard without) and reports an invalid-format error otherwise. -/
def ParseAMIName (amiName : String) : Except String AMIPattern :=
  match matchGroupVersion amiName.data with
  | some (g, p, d) =>
    .ok { HasNodegroup := true, Nodegroup := ⟨g⟩, K8sVersion := ⟨p⟩, Version := ⟨d⟩ }
  | none =>
    match matchNoGroupVersion amiName.data with
    | some (p, d) =>
      .ok { HasNodegroup := false, Nodegroup := "", K8sVersion := ⟨p⟩, Version := ⟨d⟩ }
    | none =>
      match matchGroupWildcard amiName.data with
      | some (g, p) =>
        .ok { HasNodegroup := true, Nodegroup := ⟨g⟩, K8sVersion := ⟨p⟩, Version := "" }
      | none =>
        match matchNoGroupWildcard amiName.data with
        | some p =>
          .ok { HasNodegroup := false, Nodegroup := "", K8sVersion := ⟨p⟩, Version := "" }
        | none => .error ("invalid AMI name format: " ++ amiName)

/-! ## pkg/nodeclasses: BuildNodeClassMap -/

/-- NodeClassInfo, the registry metadata derived per node class. -/
structure NodeClassInfo where
  HasNodegroup : Bool
  Nodegroup : String
deriving DecidableEq, Repr

/-- Go strings.Split(s, "-"). -/
def splitDash (s : String) : List String := (splitDashL s.data).map String.mk

/-- Registry entry computed for one record by the loop body of
BuildNodeClassMap: none when the record has no selector term or its AMI
name does not parse; otherwise the info, with the nodegroup taken from the
pattern or, failing an explicit nodegroup, derived from the node-class name
when that name splits as domino-eks-⟨rest⟩. -/
def nodeClassEntry (nc : EC2NodeClass) : Option NodeClassInfo :=
  match nc.Spec.AMISelectorTerms with
  | [] => none
  | t :: _ =>
    match ParseAMIName t.Name with
    | .error _ => none
    | .ok pattern =>
      let ng :=
        if pattern.HasNodegroup then pattern.Nodegroup
        else
          let nameParts := splitDash nc.Metadata.Name
          if 3 ≤ nameParts.length ∧ nameParts.take 2 = ["domino", "eks"] then
            String.intercalate "-" (nameParts.drop 2)
          else pattern.Nodegroup
      some { HasNodegroup := pattern.HasNodegroup, Nodegroup := ng }

/-- BuildNodeClassMap from pkg/nodeclasses: a Go map from node-class name to
NodeClassInfo, represented as a lookup function; later insertions overwrite
earlier ones, as for a Go map. -/
def BuildNodeClassMap (nodeClasses : NodeClassList) : String → Option NodeClassInfo :=
  nodeClasses.Items.foldl
    (fun m nc =>
      match nodeClassEntry nc with
      | none => m
      | some info => fun k => if k = nc.Metadata.Name then some info else m k)
    (fun _ => none)

/-! ## main: the dry-run plan loop -/

/-- One planned change of the dry run (the local struct change of main). -/
structure Change where
  nodeclassName : String
  oldAMI : String
  newAMI : String
deriving DecidableEq, Repr

/-- New AMI name synthesized by main from the registry info, the parsed
pattern of the current name, and the selected date version: Sprintf
domino-eks-%s-%s-v%s with the nodegroup when info.HasNodegroup, otherwise
Sprintf domino-eks-%s-v%s. -/
def synthesizeAMI (info : NodeClassInfo) (pattern : AMIPattern) (versionDate : String) : String :=
  if info.HasNodegroup then
    "domino-eks-" ++ info.Nodegroup ++ "-" ++ pattern.K8sVersion ++ "-v" ++ versionDate
  else
    "domino-eks-" ++ pattern.K8sVersion ++ "-v" ++ versionDate

/-- Body of main's dry-run loop for one record: skip records without
selector terms, records whose AMI name does not parse, and records absent
from the registry map; otherwise emit the planned change. -/
def planChange (m : String → Option NodeClassInfo) (versionDate : String)
    (nc : EC2NodeClass) : Option Change :=
  match nc.Spec.AMISelectorTerms with
  | [] => none
  | t :: _ =>
    match ParseAMIName t.Name with
    | .error _ => none
    | .ok pattern =>
      match m nc.Metadata.Name with
      | none => none
      | some info =>
        some { nodeclassName := nc.Metadata.Name,
               oldAMI := t.Name,
               newAMI := synthesizeAMI info pattern versionDate }

/-- Main's dry-run loop over all records (skips become omissions). -/
def planChanges (nodeClasses : NodeClassList) (m : String → Option NodeClassInfo)
    (versionDate : String) : List Change :=
  nodeClasses.Items.filterMap (planChange m versionDate)

/-! ## pkg/nodeclasses: UpdateNodeClass JSON navigation

UpdateNodeClass unmarshals the fetched object into map[string]interface,
then runs
  spec := nodeclass[spec].(map[string]interface)
  amiSelectorTerms := spec[amiSelectorTerms].([]interface)
  amiSelectorTerms[0].(map[string]interface)[name] = newAMI
with no checks: a failed type assertion (including one on a missing key,
which yields nil) or an out-of-range index is a Go runtime panic, not an
error return. The navigation is embedded over a JSON value type with the
panic made explicit as an outcome.
-/

/-- JSON values as produced by encoding/json unmarshalling into interface. -/
inductive JValue where
  | null : JValue
  | bool (b : Bool) : JValue
  | str (s : String) : JValue
  | num (n : Int) : JValue
  | arr (xs : List JValue) : JValue
  | obj (fields : List (String × JValue)) : JValue

/-- Lookup of a key in a JSON object's field list (Go map indexing:
a missing key yields the nil interface, modeled as none). -/
def jGet : List (String × JValue) → String → Option JValue
  | [], _ => none
  | (k, v) :: rest, key => if k = key then some v else jGet rest key

/-- Replacement of a key's value in a JSON object's field list
(insert when absent, as Go map assignment). -/
def jSet : List (String × JValue) → String → JValue → List (String × JValue)
  | [], key, v => [(key, v)]
  | (k, old) :: rest, key, v =>
    if k = key then (k, v) :: rest else (k, old) :: jSet rest key v

/-- Outcome of the unchecked navigation inside UpdateNodeClass: either the
updated object, or a Go runtime panic. The function's error return covers
only the kubectl calls and the JSON (un)marshalling around this navigation,
never the navigation itself. -/
inductive UpdateOutcome where
  | updated (nodeclass : List (String × JValue)) : UpdateOutcome
  | goPanic (msg : String) : UpdateOutcome

/-- Navigation and mutation step of UpdateNodeClass from pkg/nodeclasses:
asserts nodeclass.spec is an object, spec.amiSelectorTerms is an array,
indexes element 0, asserts it is an object, and sets its name field. -/
def updateNodeClassJSON (nodeclass : List (String × JValue)) (newAMI : String) : UpdateOutcome :=
  match jGet nodeclass "spec" with
  | some (.obj spec) =>
    match jGet spec "amiSelectorTerms" with
    | some (.arr terms) =>
      match terms with
      | [] => .goPanic "runtime error: index out of range [0] with length 0"
      | t :: rest =>
        match t with
        | .obj term =>
          .updated (jSet nodeclass "spec"
            (.obj (jSet spec "amiSelectorTerms"
              (.arr (.obj (jSet term "name" (.str newAMI)) :: rest)))))
        | _ => .goPanic "interface conversion: interface is not map[string]interface"
    | _ => .goPanic "interface conversion: interface is not []interface"
  | _ => .goPanic "interface conversion: interface is not map[string]interface"

/-! ## Convergence monitoring (the variant of main with waitForNodeClaims) -/

/-- NodeClaimStatus as consumed by the display predicate; the age duration
is modeled as a count of nanoseconds. -/
structure NodeClaimStatus where
  Name : String
  NodeClass : String
  Age : Nat
  Drifted : Bool
  Reason : String
deriving DecidableEq, Repr

/-- Predicate handed by waitForNodeClaims to WaitForNodeClaimsUndrifted.
The source clears the screen and prints one line per status; its control
flow is: an empty status list returns true, and after counting the drifted
statuses both the some-drifted branch and the all-undrifted branch return
true (the literal return true annotated Continue waiting). -/
def displayPredicate (statuses : List NodeClaimStatus) : Bool :=
  if statuses.length = 0 then
    true
  else
    let driftedCount := (statuses.filter (fun s => s.Drifted)).length
    if driftedCount > 0 then
      true
    else
      true

/-- Modelled from the spec: WaitForNodeClaimsUndrifted (declared in
pkg/nodeclasses but not among the provided sources) as specified by the
Convergence Monitor state machine: each tick fetches the next status list
and evaluates the predicate; a false predicate transitions to Stopped.
The value returned is the number of fetches performed against the given
(finite) fetch trace. -/
def monitorFetchCount (pred : List NodeClaimStatus → Bool) : List (List NodeClaimStatus) → Nat
  | [] => 0
  | fetch :: rest => if pred fetch then 1 + monitorFetchCount pred rest else 1

/-! ## pkg/amis -/

/-- AMIInfo, one image of the catalog. -/
structure AMIInfo where
  Name : String
  ImageID : String
  CreationDate : String
deriving DecidableEq, Repr

/-- VersionItem, one distinct date version offered for selection. -/
structure VersionItem where
  Version : String
  Date : String
deriving DecidableEq, Repr

/-- Pattern with nodegroup of ExtractVersions,
domino-eks-.*-⟨k8s⟩-v([0-9]{8}) anchored (the k8s version is quoted
literally via QuoteMeta); matches exactly when the name decomposes as
domino-eks-⟨mid⟩-⟨k8s⟩-v⟨8 digits⟩ with mid free of newlines, and captures
the digits. The decomposition is checked from the right end, where it is
forced by the lengths of the fixed parts. -/
def matchesWithNodegroup (k8s name : List Char) : Option (List Char) :=
  match dropLit litPrefix name with
  | none => none
  | some rest =>
    let r := rest.reverse
    let dRev := r.take 8
    if dRev.length = 8 && dRev.all Char.isDigit then
      match r.drop 8 with
      | 'v' :: '-' :: r₂ =>
        match dropLit k8s.reverse r₂ with
        | some ('-' :: midRev) =>
          if midRev.all (fun c => c != '\n') then some dRev.reverse else none
        | _ => none
      | _ => none
    else none

/-- Pattern without nodegroup of ExtractVersions,
domino-eks-⟨k8s⟩-v([0-9]{8}) anchored; captures the digits. -/
def matchesWithoutNodegroup (k8s name : List Char) : Option (List Char) :=
  match dropLit litPrefix name with
  | none => none
  | some rest =>
    match dropLit k8s rest with
    | none => none
    | some cs => matchDateEnd cs

/-- Matching step of the ExtractVersions loop: the with-nodegroup pattern
is tried first, then the one without; the captured date version is
returned when either matches. -/
def matchedVersion (k8sVersion name : String) : Option String :=
  match matchesWithNodegroup k8sVersion.data name.data with
  | some d => some ⟨d⟩
  | none =>
    match matchesWithoutNodegroup k8sVersion.data name.data with
    | some d => some ⟨d⟩
    | none => none

/-- Association-list lookup for the versionSet map of ExtractVersions. -/
def mapGet : List (String × String) → String → Option String
  | [], _ => none
  | (k, v) :: rest, key => if k = key then some v else mapGet rest key

/-- Association-list update for the versionSet map of ExtractVersions
(replace in place, insert at the end when absent). -/
def mapSet : List (String × String) → String → String → List (String × String)
  | [], key, v => [(key, v)]
  | (k, old) :: rest, key, v =>
    if k = key then (k, v) :: rest else (k, old) :: mapSet rest key v

/-- Loop body of ExtractVersions for one catalog entry: on a pattern match,
record the creation date for the captured version, keeping the existing
date unless the new one is strictly greater in Go string order. -/
def stepAMI (k8sVersion : String) (m : List (String × String)) (ami : AMIInfo) :
    List (String × String) :=
  match matchedVersion k8sVersion ami.Name with
  | none => m
  | some version =>
    match mapGet m version with
    | none => mapSet m version ami.CreationDate
    | some existingDate =>
      if goStrLt existingDate ami.CreationDate then mapSet m version ami.CreationDate
      else m

/-- The versionSet map after the ExtractVersions loop. -/
def buildVersionSet (k8sVersion : String) (amis : List AMIInfo) : List (String × String) :=
  amis.foldl (stepAMI k8sVersion) []

/-- Whether a year is a leap year in the proleptic Gregorian calendar,
as used by Go package time. -/
def leapYear (y : Nat) : Bool := (y % 4 = 0 && y % 100 != 0) || y % 400 = 0

/-- Number of days of a month, as validated by Go time.Parse. -/
def daysInMonth (y m : Nat) : Nat :=
  if m = 2 then (if leapYear y then 29 else 28)
  else if m = 4 || m = 6 || m = 9 || m = 11 then 30
  else 31

/-- Numeric value of a decimal digit character. -/
def digitVal (c : Char) : Nat := c.toNat - '0'.toNat

/-- ParseDate from pkg/amis: parse the timestamp with Go layout
2006-01-02T15:04:05.000Z and reformat it with layout 2006-01-02 15:04,
returning the input unchanged when parsing fails. Parsing demands the
exact literal layout with all components in range. -/
def ParseDate (dateStr : String) : String :=
  match dateStr.data with
  | [y₁, y₂, y₃, y₄, '-', m₁, m₂, '-', d₁, d₂, 'T',
     h₁, h₂, ':', n₁, n₂, ':', s₁, s₂, '.', f₁, f₂, f₃, 'Z'] =>
    if ([y₁, y₂, y₃, y₄, m₁, m₂, d₁, d₂, h₁, h₂, n₁, n₂, s₁, s₂, f₁, f₂, f₃].all
          Char.isDigit)
        && (let mo := digitVal m₁ * 10 + digitVal m₂
            let dy := digitVal d₁ * 10 + digitVal d₂
            let yr := digitVal y₁ * 1000 + digitVal y₂ * 100 + digitVal y₃ * 10 + digitVal y₄
            1 ≤ mo && mo ≤ 12 && 1 ≤ dy && dy ≤ daysInMonth yr mo)
        && digitVal h₁ * 10 + digitVal h₂ ≤ 23
        && digitVal n₁ * 10 + digitVal n₂ ≤ 59
        && digitVal s₁ * 10 + digitVal s₂ ≤ 59 then
      ⟨[y₁, y₂, y₃, y₄, '-', m₁, m₂, '-', d₁, d₂, ' ', h₁, h₂, ':', n₁, n₂]⟩
    else dateStr
  | _ => dateStr

/-- Insertion into a list sorted descending by version in Go string order
(the comparator of the sort.Slice call in ExtractVersions). -/
def insertVersionDesc (x : VersionItem) : List VersionItem → List VersionItem
  | [] => [x]
  | y :: rest =>
    if goStrLt y.Version x.Version then x :: y :: rest else y :: insertVersionDesc x rest

/-- Sorting by version, descending in Go string order (the sort.Slice call
of ExtractVersions; the comparator is version-greater-than). -/
def sortVersionsDesc : List VersionItem → List VersionItem
  | [] => []
  | x :: rest => insertVersionDesc x (sortVersionsDesc rest)

/-- ExtractVersions from pkg/amis: build the versionSet map over the
catalog, fail when it is empty, otherwise emit one VersionItem per entry
(date formatted by ParseDate) sorted descending by version. -/
def ExtractVersions (amis : List AMIInfo) (k8sVersion : String) :
    Except String (List VersionItem) :=
  let versionSet := buildVersionSet k8sVersion amis
  if versionSet.isEmpty then
    .error "no matching AMI versions found"
  else
    .ok (sortVersionsDesc (versionSet.map
      (fun p => { Version := p.1, Date := ParseDate p.2 })))

/-- Pointwise effect of the ExtractVersions loop on the date recorded for
one fixed version key v: a non-matching entry or one matching another
version leaves the accumulator alone; a matching one installs its creation
date when none is recorded or when it is strictly greater in Go string
order. The fold of this function is proved below to agree with mapGet of
the versionSet fold. -/
def keepLatest (k8sVersion v : String) (acc : Option String) (ami : AMIInfo) :
    Option String :=
  if matchedVersion k8sVersion ami.Name = some v then
    match acc with
    | none => some ami.CreationDate
    | some existingDate =>
      if goStrLt existingDate ami.CreationDate then some ami.CreationDate
      else some existingDate
  else acc

/-! ## Lemmas about the character-list utilities -/

theorem spanP_eq_append (P : Char → Bool) (l : List Char) :
    (spanP P l).1 ++ (spanP P l).2 = l := by
  induction l with
  | nil => rfl
  | cons c cs ih =>
    by_cases h : P c
    · simp [spanP, h, ih]
    · simp [spanP, h]

theorem spanP_all (P : Char → Bool) (l : List Char) : (spanP P l).1.all P = true := by
  induction l with
  | nil => rfl
  | cons c cs ih =>
    by_cases h : P c
    · simp [spanP, h, ih]
    · simp [spanP, h]

theorem spanP_append (P : Char → Bool) {l : List Char} (hall : l.all P = true)
    {c : Char} (hc : P c = false) (r : List Char) :
    spanP P (l ++ c :: r) = (l, c :: r) := by
  induction l with
  | nil => simp [spanP, hc]
  | cons a as ih =>
    simp only [List.all_cons, Bool.and_eq_true] at hall
    simp [spanP, hall.1, ih hall.2]

theorem dropLit_append (lit rest : List Char) : dropLit lit (lit ++ rest) = some rest := by
  induction lit with
  | nil => rfl
  | cons l ls ih => simp [dropLit, ih]

theorem dropLit_sound {lit cs rest : List Char} (h : dropLit lit cs = some rest) :
    cs = lit ++ rest := by
  induction lit generalizing cs with
  | nil => simpa [dropLit] using h
  | cons l ls ih =>
    cases cs with
    | nil => simp [dropLit] at h
    | cons c cs' =>
      by_cases hc : c = l
      · subst hc
        simp only [dropLit, if_pos rfl] at h
        simpa using ih h
      · simp [dropLit, hc] at h

/-- Uniqueness of the split at the first hyphen: two decompositions of the
same list into a hyphen-free segment, a hyphen, and a remainder agree. -/
theorem hyphenSplit_unique {l₁ l₂ r₁ r₂ : List Char}
    (h₁ : l₁.all (fun c => c != '-') = true) (h₂ : l₂.all (fun c => c != '-') = true)
    (h : l₁ ++ '-' :: r₁ = l₂ ++ '-' :: r₂) : l₁ = l₂ ∧ r₁ = r₂ := by
  induction l₁ generalizing l₂ with
  | nil =>
    cases l₂ with
    | nil => simpa using h
    | cons b bs =>
      simp only [List.nil_append, List.cons_append, List.cons.injEq] at h
      simp only [List.all_cons, Bool.and_eq_true, bne_iff_ne] at h₂
      exact absurd h.1.symm h₂.1
  | cons a as ih =>
    cases l₂ with
    | nil =>
      simp only [List.nil_append, List.cons_append, List.cons.injEq] at h
      simp only [List.all_cons, Bool.and_eq_true, bne_iff_ne] at h₁
      exact absurd h.1 h₁.1
    | cons b bs =>
      simp only [List.cons_append, List.cons.injEq] at h
      simp only [List.all_cons, Bool.and_eq_true] at h₁ h₂
      obtain ⟨hl, hr⟩ := ih h₁.2 h₂.2 h.2
      exact ⟨by rw [h.1, hl], hr⟩

/-- Decimal digits are not hyphens. -/
theorem digit_ne_dash {c : Char} (h : c.isDigit = true) : (c != '-') = true := by
  rcases eq_or_ne c '-' with rfl | hne
  · exact absurd h (by decide)
  · simpa [bne_iff_ne] using hne

/-- A platform-version segment 1.⟨digits⟩ contains no hyphen. -/
theorem k8sSeg_no_dash {n : List Char} (hn : n.all Char.isDigit = true) :
    ('1' :: '.' :: n).all (fun c => c != '-') = true := by
  simp only [List.all_cons, Bool.and_eq_true]
  refine ⟨by decide, by decide, ?_⟩
  rw [List.all_eq_true] at hn ⊢
  exact fun c hc => digit_ne_dash (hn c hc)

/-! ## Soundness and completeness of the four parser matchers -/

theorem matchK8s_sound {cs p rest : List Char} (h : matchK8s cs = some (p, rest)) :
    ∃ n, p = '1' :: '.' :: n ∧ n ≠ [] ∧ n.all Char.isDigit = true ∧ cs = p ++ rest := by
  unfold matchK8s at h
  split at h
  case h_2 => exact absurd h (by simp)
  case h_1 cs₁ =>
    by_cases he : (spanP Char.isDigit cs₁).1.isEmpty
    · rw [if_pos he] at h; exact absurd h (by simp)
    · rw [if_neg he] at h
      injection h with h'
      rw [Prod.mk.injEq] at h'
      obtain ⟨hp, hrest⟩ := h'
      refine ⟨(spanP Char.isDigit cs₁).1, hp.symm, ?_, spanP_all _ _, ?_⟩
      · simpa [List.isEmpty_iff] using he
      · rw [← hp, ← hrest]
        simp [spanP_eq_append]

theorem matchK8s_complete {n : List Char} (hn : n ≠ []) (hdig : n.all Char.isDigit = true)
    (r : List Char) :
    matchK8s ('1' :: '.' :: (n ++ '-' :: r)) = some ('1' :: '.' :: n, '-' :: r) := by
  have hsp := spanP_append Char.isDigit hdig (show Char.isDigit '-' = false by decide) r
  simp only [matchK8s, hsp]
  simp [List.isEmpty_iff, hn]

theorem matchDateEnd_sound {cs d : List Char} (h : matchDateEnd cs = some d) :
    cs = '-' :: 'v' :: d ∧ d.length = 8 ∧ d.all Char.isDigit = true := by
  unfold matchDateEnd at h
  split at h
  case h_2 => exact absurd h (by simp)
  case h_1 ds =>
    by_cases hc : ds.length = 8 ∧ ds.all Char.isDigit = true
    · rw [if_pos (by simp [hc.1, hc.2])] at h
      injection h with h'
      exact ⟨by rw [h'], h' ▸ hc.1, h' ▸ hc.2⟩
    · rw [if_neg (by simpa [Bool.and_eq_true, not_and] using fun h1 h2 => hc ⟨by simpa using h1, h2⟩)] at h
      exact absurd h (by simp)

theorem matchDateEnd_complete {d : List Char} (h8 : d.length = 8)
    (hdig : d.all Char.isDigit = true) : matchDateEnd ('-' :: 'v' :: d) = some d := by
  unfold matchDateEnd
  simp [h8, hdig]

theorem matchGroupVersion_sound {s g p d : List Char}
    (h : matchGroupVersion s = some (g, p, d)) :
    g ≠ [] ∧ g.all (fun c => c != '-') = true ∧
    (∃ n, p = '1' :: '.' :: n ∧ n ≠ [] ∧ n.all Char.isDigit = true) ∧
    d.length = 8 ∧ d.all Char.isDigit = true ∧
    s = litPrefix ++ (g ++ '-' :: (p ++ '-' :: 'v' :: d)) := by
  unfold matchGroupVersion at h
  cases hdrop : dropLit litPrefix s with
  | none => rw [hdrop] at h; exact absurd h (by simp)
  | some cs =>
    rw [hdrop] at h
    dsimp only at h
    rcases hsp : spanP (fun c => c != '-') cs with ⟨t, r⟩
    rw [hsp] at h
    dsimp only at h
    have hcs : t ++ r = cs := by
      have h0 := spanP_eq_append (fun c => c != '-') cs
      rw [hsp] at h0
      simpa using h0
    have htall : t.all (fun c => c != '-') = true := by
      have h0 := spanP_all (fun c => c != '-') cs
      rw [hsp] at h0
      simpa using h0
    by_cases hte : t.isEmpty
    · rw [if_pos hte] at h; exact absurd h (by simp)
    · rw [if_neg hte] at h
      split at h
      · rename_i cs₁
        cases hk : matchK8s cs₁ with
        | none => rw [hk] at h; exact absurd h (by simp)
        | some pr =>
          rcases pr with ⟨p', rest⟩
          rw [hk] at h
          dsimp only at h
          cases hde : matchDateEnd rest with
          | none => rw [hde] at h; exact absurd h (by simp)
          | some d' =>
            rw [hde] at h
            dsimp only at h
            injection h with h'
            rw [Prod.mk.injEq, Prod.mk.injEq] at h'
            obtain ⟨hgt, hpp, hdd⟩ := h'
            obtain ⟨n, hpn, hn, hndig, hcs₁⟩ := matchK8s_sound hk
            obtain ⟨hrest, h8, hddig⟩ := matchDateEnd_sound hde
            subst hgt hpp hdd
            refine ⟨by simpa [List.isEmpty_iff] using hte, htall,
              ⟨n, hpn, hn, hndig⟩, h8, hddig, ?_⟩
            rw [dropLit_sound hdrop, ← hcs, hcs₁, hrest]
      · exact absurd h (by simp)
theorem matchGroupVersion_complete {g n d : List Char} (hg : g ≠ [])
    (hgd : g.all (fun c => c != '-') = true) (hn : n ≠ [])
    (hdig : n.all Char.isDigit = true) (h8 : d.length = 8)
    (hd : d.all Char.isDigit = true) :
    matchGroupVersion (litPrefix ++ (g ++ '-' :: ('1' :: '.' :: n ++ '-' :: 'v' :: d)))
      = some (g, '1' :: '.' :: n, d) := by
  have hsp : spanP (fun c => c != '-') (g ++ '-' :: ('1' :: '.' :: n ++ '-' :: 'v' :: d))
      = (g, '-' :: ('1' :: '.' :: n ++ '-' :: 'v' :: d)) :=
    spanP_append _ hgd (by decide) _
  have hk := matchK8s_complete hn hdig ('v' :: d)
  have hde := matchDateEnd_complete h8 hd
  simp only [matchGroupVersion, dropLit_append, hsp]
  simp [List.isEmpty_iff, hg, hk, hde]

theorem matchNoGroupVersion_sound {s p d : List Char}
    (h : matchNoGroupVersion s = some (p, d)) :
    (∃ n, p = '1' :: '.' :: n ∧ n ≠ [] ∧ n.all Char.isDigit = true) ∧
    d.length = 8 ∧ d.all Char.isDigit = true ∧
    s = litPrefix ++ (p ++ '-' :: 'v' :: d) := by
  unfold matchNoGroupVersion at h
  cases hdrop : dropLit litPrefix s with
  | none => rw [hdrop] at h; exact absurd h (by simp)
  | some cs =>
    rw [hdrop] at h
    dsimp only at h
    cases hk : matchK8s cs with
    | none => rw [hk] at h; exact absurd h (by simp)
    | some pr =>
      rcases pr with ⟨p', rest⟩
      rw [hk] at h
      dsimp only at h
      cases hde : matchDateEnd rest with
      | none => rw [hde] at h; exact absurd h (by simp)
      | some d' =>
        rw [hde] at h
        dsimp only at h
        injection h with h'
        rw [Prod.mk.injEq] at h'
        obtain ⟨hpp, hdd⟩ := h'
        obtain ⟨n, hpn, hn, hndig, hcs⟩ := matchK8s_sound hk
        obtain ⟨hrest, h8, hddig⟩ := matchDateEnd_sound hde
        subst hpp hdd
        exact ⟨⟨n, hpn, hn, hndig⟩, h8, hddig, by rw [dropLit_sound hdrop, hcs, hrest]⟩
theorem matchNoGroupVersion_complete {n d : List Char} (hn : n ≠ [])
    (hdig : n.all Char.isDigit = true) (h8 : d.length = 8)
    (hd : d.all Char.isDigit = true) :
    matchNoGroupVersion (litPrefix ++ ('1' :: '.' :: n ++ '-' :: 'v' :: d))
      = some ('1' :: '.' :: n, d) := by
  have hk := matchK8s_complete hn hdig ('v' :: d)
  have hde := matchDateEnd_complete h8 hd
  simp only [matchNoGroupVersion, dropLit_append]
  simp [hk, hde]

theorem matchGroupWildcard_sound {s g p : List Char}
    (h : matchGroupWildcard s = some (g, p)) :
    g ≠ [] ∧ g.all (fun c => c != '-') = true ∧
    (∃ n, p = '1' :: '.' :: n ∧ n ≠ [] ∧ n.all Char.isDigit = true) ∧
    ∃ tail, tail.all (fun c => c != '\n') = true ∧
      s = litPrefix ++ (g ++ '-' :: (p ++ '-' :: tail)) := by
  unfold matchGroupWildcard at h
  cases hdrop : dropLit litPrefix s with
  | none => rw [hdrop] at h; exact absurd h (by simp)
  | some cs =>
    rw [hdrop] at h
    dsimp only at h
    rcases hsp : spanP (fun c => c != '-') cs with ⟨t, r⟩
    rw [hsp] at h
    dsimp only at h
    have hcs : t ++ r = cs := by
      have h0 := spanP_eq_append (fun c => c != '-') cs
      rw [hsp] at h0
      simpa using h0
    have htall : t.all (fun c => c != '-') = true := by
      have h0 := spanP_all (fun c => c != '-') cs
      rw [hsp] at h0
      simpa using h0
    by_cases hte : t.isEmpty
    · rw [if_pos hte] at h; exact absurd h (by simp)
    · rw [if_neg hte] at h
      split at h
      · rename_i cs₁
        cases hk : matchK8s cs₁ with
        | none => rw [hk] at h; exact absurd h (by simp)
        | some pr =>
          rcases pr with ⟨p', rest⟩
          rw [hk] at h
          dsimp only at h
          split at h
          · rename_i tail
            by_cases hnl : tail.all (fun c => c != '\n') = true
            · rw [if_pos hnl] at h
              injection h with h'
              rw [Prod.mk.injEq] at h'
              obtain ⟨hgt, hpp⟩ := h'
              obtain ⟨n, hpn, hn, hndig, hcs₁⟩ := matchK8s_sound hk
              subst hgt hpp
              refine ⟨by simpa [List.isEmpty_iff] using hte, htall,
                ⟨n, hpn, hn, hndig⟩, tail, hnl, ?_⟩
              rw [dropLit_sound hdrop, ← hcs, hcs₁]
            · rw [if_neg hnl] at h; exact absurd h (by simp)
          · exact absurd h (by simp)
      · exact absurd h (by simp)
theorem matchGroupWildcard_complete {g n tail : List Char} (hg : g ≠ [])
    (hgd : g.all (fun c => c != '-') = true) (hn : n ≠ [])
    (hdig : n.all Char.isDigit = true) (hnl : tail.all (fun c => c != '\n') = true) :
    matchGroupWildcard (litPrefix ++ (g ++ '-' :: ('1' :: '.' :: n ++ '-' :: tail)))
      = some (g, '1' :: '.' :: n) := by
  have hsp : spanP (fun c => c != '-') (g ++ '-' :: ('1' :: '.' :: n ++ '-' :: tail))
      = (g, '-' :: ('1' :: '.' :: n ++ '-' :: tail)) :=
    spanP_append _ hgd (by decide) _
  have hk := matchK8s_complete hn hdig tail
  simp only [matchGroupWildcard, dropLit_append, hsp]
  simp [List.isEmpty_iff, hg, hk, hnl]

theorem matchNoGroupWildcard_sound {s p : List Char}
    (h : matchNoGroupWildcard s = some p) :
    (∃ n, p = '1' :: '.' :: n ∧ n ≠ [] ∧ n.all Char.isDigit = true) ∧
    ∃ tail, tail.all (fun c => c != '\n') = true ∧
      s = litPrefix ++ (p ++ '-' :: tail) := by
  unfold matchNoGroupWildcard at h
  cases hdrop : dropLit litPrefix s with
  | none => rw [hdrop] at h; exact absurd h (by simp)
  | some cs =>
    rw [hdrop] at h
    dsimp only at h
    cases hk : matchK8s cs with
    | none => rw [hk] at h; exact absurd h (by simp)
    | some pr =>
      rcases pr with ⟨p', rest⟩
      rw [hk] at h
      dsimp only at h
      split at h
      · rename_i tail
        by_cases hnl : tail.all (fun c => c != '\n') = true
        · rw [if_pos hnl] at h
          injection h with h'
          obtain ⟨n, hpn, hn, hndig, hcs⟩ := matchK8s_sound hk
          subst h'
          exact ⟨⟨n, hpn, hn, hndig⟩, tail, hnl, by rw [dropLit_sound hdrop, hcs]⟩
        · rw [if_neg hnl] at h; exact absurd h (by simp)
      · exact absurd h (by simp)
theorem matchNoGroupWildcard_complete {n tail : List Char} (hn : n ≠ [])
    (hdig : n.all Char.isDigit = true) (hnl : tail.all (fun c => c != '\n') = true) :
    matchNoGroupWildcard (litPrefix ++ ('1' :: '.' :: n ++ '-' :: tail))
      = some ('1' :: '.' :: n) := by
  have hk := matchK8s_complete hn hdig tail
  simp only [matchNoGroupWildcard, dropLit_append]
  simp [hk, hnl]

/-! ## Disambiguation: which matchers reject which grammar forms

The grammar's priority order only behaves as specified because the earlier
resolved patterns reject the later wildcard forms and the with-nodegroup
patterns reject the without-nodegroup forms; the next lemmas settle those
rejections, each by appeal to the uniqueness of the split at the first
hyphen after the literal prefix. -/

theorem matchGroupVersion_fails_flat {seg rest : List Char}
    (hseg : seg.all (fun c => c != '-') = true) (hhead : rest.head? ≠ some '1') :
    matchGroupVersion (litPrefix ++ (seg ++ '-' :: rest)) = none := by
  cases h : matchGroupVersion (litPrefix ++ (seg ++ '-' :: rest)) with
  | none => rfl
  | some v =>
    rcases v with ⟨g', p', d'⟩
    obtain ⟨hg', hgd', ⟨n', hpn', hn', hnd'⟩, h8', hd', hs⟩ := matchGroupVersion_sound h
    obtain ⟨hseg_eq, hrest_eq⟩ :=
      hyphenSplit_unique hseg hgd' (List.append_cancel_left hs)
    rw [hrest_eq, hpn'] at hhead
    simp at hhead

theorem matchNoGroupVersion_fails_flat {seg rest : List Char}
    (hseg : seg.all (fun c => c != '-') = true) (hhead : rest.head? ≠ some 'v') :
    matchNoGroupVersion (litPrefix ++ (seg ++ '-' :: rest)) = none := by
  cases h : matchNoGroupVersion (litPrefix ++ (seg ++ '-' :: rest)) with
  | none => rfl
  | some v =>
    rcases v with ⟨p', d'⟩
    obtain ⟨⟨n', hpn', hn', hnd'⟩, h8', hd', hs⟩ := matchNoGroupVersion_sound h
    have hpd : p'.all (fun c => c != '-') = true := by rw [hpn']; exact k8sSeg_no_dash hnd'
    obtain ⟨hseg_eq, hrest_eq⟩ :=
      hyphenSplit_unique hseg hpd (List.append_cancel_left hs)
    rw [hrest_eq] at hhead
    simp at hhead

theorem matchGroupVersion_fails_nested {g seg rest : List Char}
    (hg : g.all (fun c => c != '-') = true) (hseg : seg.all (fun c => c != '-') = true)
    (hhead : rest.head? ≠ some 'v') :
    matchGroupVersion (litPrefix ++ (g ++ '-' :: (seg ++ '-' :: rest))) = none := by
  cases h : matchGroupVersion (litPrefix ++ (g ++ '-' :: (seg ++ '-' :: rest))) with
  | none => rfl
  | some v =>
    rcases v with ⟨g', p', d'⟩
    obtain ⟨hg', hgd', ⟨n', hpn', hn', hnd'⟩, h8', hd', hs⟩ := matchGroupVersion_sound h
    obtain ⟨hgeq, hreq⟩ := hyphenSplit_unique hg hgd' (List.append_cancel_left hs)
    have hpd : p'.all (fun c => c != '-') = true := by rw [hpn']; exact k8sSeg_no_dash hnd'
    obtain ⟨hseg_eq, hrest_eq⟩ := hyphenSplit_unique hseg hpd hreq
    rw [hrest_eq] at hhead
    simp at hhead

theorem matchGroupWildcard_fails_flat {seg rest : List Char}
    (hseg : seg.all (fun c => c != '-') = true) (hhead : rest.head? ≠ some '1') :
    matchGroupWildcard (litPrefix ++ (seg ++ '-' :: rest)) = none := by
  cases h : matchGroupWildcard (litPrefix ++ (seg ++ '-' :: rest)) with
  | none => rfl
  | some v =>
    rcases v with ⟨g', p'⟩
    obtain ⟨hg', hgd', ⟨n', hpn', hn', hnd'⟩, tail, hnl, hs⟩ := matchGroupWildcard_sound h
    obtain ⟨hseg_eq, hrest_eq⟩ :=
      hyphenSplit_unique hseg hgd' (List.append_cancel_left hs)
    rw [hrest_eq, hpn'] at hhead
    simp at hhead

/-! ## ParseAMIName on the four grammar forms (string level) -/

theorem data_append (a b : String) : (a ++ b).data = a.data ++ b.data := rfl

theorem mk_data (s : String) : String.mk s.data = s := rfl

theorem parse_resolved_group {g p d : String}
    (hg : g.data ≠ []) (hgd : g.data.all (fun c => c != '-') = true)
    {n : List Char} (hpn : p.data = '1' :: '.' :: n) (hn : n ≠ [])
    (hnd : n.all Char.isDigit = true)
    (h8 : d.data.length = 8) (hd : d.data.all Char.isDigit = true) :
    ParseAMIName ("domino-eks-" ++ g ++ "-" ++ p ++ "-v" ++ d)
      = .ok { HasNodegroup := true, Nodegroup := g, K8sVersion := p, Version := d } := by
  have hdata : ("domino-eks-" ++ g ++ "-" ++ p ++ "-v" ++ d).data
      = litPrefix ++ (g.data ++ '-' :: (p.data ++ '-' :: 'v' :: d.data)) := by
    have hdash : "-".data = ['-'] := rfl
    have hdv : "-v".data = ['-', 'v'] := rfl
    simp [data_append, litPrefix, hdash, hdv, List.append_assoc]
  unfold ParseAMIName
  rw [hdata, hpn, matchGroupVersion_complete hg hgd hn hnd h8 hd]
  dsimp only
  rw [← hpn]

theorem parse_resolved_nogroup {p d : String}
    {n : List Char} (hpn : p.data = '1' :: '.' :: n) (hn : n ≠ [])
    (hnd : n.all Char.isDigit = true)
    (h8 : d.data.length = 8) (hd : d.data.all Char.isDigit = true) :
    ParseAMIName ("domino-eks-" ++ p ++ "-v" ++ d)
      = .ok { HasNodegroup := false, Nodegroup := "", K8sVersion := p, Version := d } := by
  have hdata : ("domino-eks-" ++ p ++ "-v" ++ d).data
      = litPrefix ++ (p.data ++ '-' :: 'v' :: d.data) := by
    have hdv : "-v".data = ['-', 'v'] := rfl
    simp [data_append, litPrefix, hdv, List.append_assoc]
  unfold ParseAMIName
  rw [hdata, hpn,
    matchGroupVersion_fails_flat (k8sSeg_no_dash hnd) (by simp),
    matchNoGroupVersion_complete hn hnd h8 hd]
  dsimp only
  rw [← hpn]

theorem parse_wildcard_group {g p : String}
    (hg : g.data ≠ []) (hgd : g.data.all (fun c => c != '-') = true)
    {n : List Char} (hpn : p.data = '1' :: '.' :: n) (hn : n ≠ [])
    (hnd : n.all Char.isDigit = true) :
    ParseAMIName ("domino-eks-" ++ g ++ "-" ++ p ++ "-*")
      = .ok { HasNodegroup := true, Nodegroup := g, K8sVersion := p, Version := "" } := by
  have hdata : ("domino-eks-" ++ g ++ "-" ++ p ++ "-*").data
      = litPrefix ++ (g.data ++ '-' :: (p.data ++ '-' :: ['*'])) := by
    have hdash : "-".data = ['-'] := rfl
    have hds : "-*".data = ['-', '*'] := rfl
    simp [data_append, litPrefix, hdash, hds, List.append_assoc]
  unfold ParseAMIName
  rw [hdata, hpn,
    matchGroupVersion_fails_nested hgd (k8sSeg_no_dash hnd) (by decide),
    matchNoGroupVersion_fails_flat hgd (by simp),
    @matchGroupWildcard_complete g.data n ['*'] hg hgd hn hnd (by decide)]
  dsimp only
  rw [← hpn]

theorem parse_wildcard_nogroup {p : String}
    {n : List Char} (hpn : p.data = '1' :: '.' :: n) (hn : n ≠ [])
    (hnd : n.all Char.isDigit = true) :
    ParseAMIName ("domino-eks-" ++ p ++ "-*")
      = .ok { HasNodegroup := false, Nodegroup := "", K8sVersion := p, Version := "" } := by
  have hdata : ("domino-eks-" ++ p ++ "-*").data
      = litPrefix ++ (p.data ++ '-' :: ['*']) := by
    have hds : "-*".data = ['-', '*'] := rfl
    simp [data_append, litPrefix, hds, List.append_assoc]
  unfold ParseAMIName
  rw [hdata, hpn,
    matchGroupVersion_fails_flat (k8sSeg_no_dash hnd) (by decide),
    matchNoGroupVersion_fails_flat (k8sSeg_no_dash hnd) (by decide),
    matchGroupWildcard_fails_flat (k8sSeg_no_dash hnd) (by decide),
    @matchNoGroupWildcard_complete n ['*'] hn hnd (by decide)]
  dsimp only
  rw [← hpn]

/-- Auxiliary: a string with empty character data is the empty string. -/
theorem eq_empty_of_data_eq_nil {s : String} (h : s.data = []) : s = "" := by
  rw [← mk_data s, h]

/-- Claim C3: for every name of the resolved grammar forms
domino-eks-⟨g⟩-⟨p⟩-v⟨d⟩ and domino-eks-⟨p⟩-v⟨d⟩ (g nonempty and hyphen-free,
p of the form 1.N, d eight digits), ParseAMIName succeeds and returns
exactly the components, with a non-empty date version (so a resolved name
is never mistaken for pending); and for the wildcard forms
domino-eks-⟨g⟩-⟨p⟩-* and domino-eks-⟨p⟩-*, it succeeds with an empty date
version. -/
theorem parseAMIName_grammar_roundtrip (g p d : String)
    (hg : g ≠ "") (hgd : g.data.all (fun c => c != '-') = true)
    (hp : ∃ n, p.data = '1' :: '.' :: n ∧ n ≠ [] ∧ n.all Char.isDigit = true)
    (h8 : d.data.length = 8) (hd : d.data.all Char.isDigit = true) :
    ParseAMIName ("domino-eks-" ++ g ++ "-" ++ p ++ "-v" ++ d)
      = .ok { HasNodegroup := true, Nodegroup := g, K8sVersion := p, Version := d }
    ∧ ParseAMIName ("domino-eks-" ++ p ++ "-v" ++ d)
      = .ok { HasNodegroup := false, Nodegroup := "", K8sVersion := p, Version := d }
    ∧ ParseAMIName ("domino-eks-" ++ g ++ "-" ++ p ++ "-*")
      = .ok { HasNodegroup := true, Nodegroup := g, K8sVersion := p, Version := "" }
    ∧ ParseAMIName ("domino-eks-" ++ p ++ "-*")
      = .ok { HasNodegroup := false, Nodegroup := "", K8sVersion := p, Version := "" }
    ∧ d ≠ "" := by
  obtain ⟨n, hpn, hn, hnd⟩ := hp
  have hgdata : g.data ≠ [] := fun h => hg (eq_empty_of_data_eq_nil h)
  refine ⟨parse_resolved_group hgdata hgd hpn hn hnd h8 hd,
    parse_resolved_nogroup hpn hn hnd h8 hd,
    parse_wildcard_group hgdata hgd hpn hn hnd,
    parse_wildcard_nogroup hpn hn hnd, ?_⟩
  intro hde
  rw [hde] at h8
  exact absurd h8 (by decide)

/-- Witness for claim C3 at g = gpu, p = 1.33, d = 20251001. -/
theorem parseAMIName_grammar_roundtrip_witness :
    ParseAMIName "domino-eks-gpu-1.33-v20251001"
      = .ok { HasNodegroup := true, Nodegroup := "gpu", K8sVersion := "1.33",
              Version := "20251001" }
    ∧ ParseAMIName "domino-eks-1.33-v20251001"
      = .ok { HasNodegroup := false, Nodegroup := "", K8sVersion := "1.33",
              Version := "20251001" }
    ∧ ParseAMIName "domino-eks-gpu-1.33-*"
      = .ok { HasNodegroup := true, Nodegroup := "gpu", K8sVersion := "1.33", Version := "" }
    ∧ ParseAMIName "domino-eks-1.33-*"
      = .ok { HasNodegroup := false, Nodegroup := "", K8sVersion := "1.33", Version := "" }
    ∧ "20251001" ≠ "" :=
  parseAMIName_grammar_roundtrip "gpu" "1.33" "20251001" (by decide) (by decide)
    ⟨['3', '3'], rfl, by decide, by decide⟩ (by decide) (by decide)

/-- Auxiliary: strings with equal character data are equal. -/
theorem data_inj {a b : String} (h : a.data = b.data) : a = b := by
  rw [← mk_data a, ← mk_data b, h]

theorem data_group_version (g p d : String) :
    ("domino-eks-" ++ g ++ "-" ++ p ++ "-v" ++ d).data
      = litPrefix ++ (g.data ++ '-' :: (p.data ++ '-' :: 'v' :: d.data)) := by
  have hdash : "-".data = ['-'] := rfl
  have hdv : "-v".data = ['-', 'v'] := rfl
  simp [data_append, litPrefix, hdash, hdv, List.append_assoc]

theorem data_nogroup_version (p d : String) :
    ("domino-eks-" ++ p ++ "-v" ++ d).data
      = litPrefix ++ (p.data ++ '-' :: 'v' :: d.data) := by
  have hdv : "-v".data = ['-', 'v'] := rfl
  simp [data_append, litPrefix, hdv, List.append_assoc]

/-- Inversion of ParseAMIName on a successfully parsed resolved name: the
result came from pattern 1 or pattern 2, and the input string is recovered
exactly from the components. -/
theorem ParseAMIName_ok_resolved {s : String} {pat : AMIPattern}
    (h : ParseAMIName s = .ok pat) (hv : pat.Version ≠ "") :
    (∃ n, pat.K8sVersion.data = '1' :: '.' :: n ∧ n ≠ [] ∧ n.all Char.isDigit = true) ∧
    pat.Version.data.length = 8 ∧ pat.Version.data.all Char.isDigit = true ∧
    ((pat.HasNodegroup = true ∧ pat.Nodegroup ≠ "" ∧
        pat.Nodegroup.data.all (fun c => c != '-') = true ∧
        s = "domino-eks-" ++ pat.Nodegroup ++ "-" ++ pat.K8sVersion ++ "-v" ++ pat.Version)
     ∨ (pat.HasNodegroup = false ∧ pat.Nodegroup = "" ∧
        s = "domino-eks-" ++ pat.K8sVersion ++ "-v" ++ pat.Version)) := by
  unfold ParseAMIName at h
  cases h1 : matchGroupVersion s.data with
  | some v =>
    rcases v with ⟨g, p, d⟩
    rw [h1] at h
    dsimp only at h
    injection h with h'
    subst h'
    obtain ⟨hg, hgd, ⟨n, hpn, hn, hnd⟩, h8, hd, hs⟩ := matchGroupVersion_sound h1
    refine ⟨⟨n, hpn, hn, hnd⟩, h8, hd, Or.inl ⟨rfl, ?_, hgd, ?_⟩⟩
    · intro hc
      exact hg (congrArg String.data hc)
    · refine data_inj ?_
      rw [hs, data_group_version]
  | none =>
    rw [h1] at h
    dsimp only at h
    cases h2 : matchNoGroupVersion s.data with
    | some v =>
      rcases v with ⟨p, d⟩
      rw [h2] at h
      dsimp only at h
      injection h with h'
      subst h'
      obtain ⟨⟨n, hpn, hn, hnd⟩, h8, hd, hs⟩ := matchNoGroupVersion_sound h2
      refine ⟨⟨n, hpn, hn, hnd⟩, h8, hd, Or.inr ⟨rfl, rfl, ?_⟩⟩
      refine data_inj ?_
      rw [hs, data_nogroup_version]
    | none =>
      rw [h2] at h
      dsimp only at h
      cases h3 : matchGroupWildcard s.data with
      | some v =>
        rcases v with ⟨g, p⟩
        rw [h3] at h
        dsimp only at h
        injection h with h'
        subst h'
        exact absurd rfl hv
      | none =>
        rw [h3] at h
        dsimp only at h
        cases h4 : matchNoGroupWildcard s.data with
        | some p =>
          rw [h4] at h
          dsimp only at h
          injection h with h'
          subst h'
          exact absurd rfl hv
        | none =>
          rw [h4] at h
          dsimp only at h
          exact absurd h (by simp)

/-- Inversion of ParseAMIName: a successful parse without a nodegroup
always carries an empty nodegroup string (patterns 2 and 4 construct it
as the empty literal). -/
theorem ParseAMIName_ok_nogroup_empty {s : String} {pat : AMIPattern}
    (h : ParseAMIName s = .ok pat) (hng : pat.HasNodegroup = false) :
    pat.Nodegroup = "" := by
  unfold ParseAMIName at h
  cases h1 : matchGroupVersion s.data with
  | some v =>
    rcases v with ⟨g, p, d⟩
    rw [h1] at h
    dsimp only at h
    injection h with h'
    subst h'
    exact absurd hng (by simp)
  | none =>
    rw [h1] at h
    dsimp only at h
    cases h2 : matchNoGroupVersion s.data with
    | some v =>
      rcases v with ⟨p, d⟩
      rw [h2] at h
      dsimp only at h
      injection h with h'
      subst h'
      rfl
    | none =>
      rw [h2] at h
      dsimp only at h
      cases h3 : matchGroupWildcard s.data with
      | some v =>
        rcases v with ⟨g, p⟩
        rw [h3] at h
        dsimp only at h
        injection h with h'
        subst h'
        exact absurd hng (by simp)
      | none =>
        rw [h3] at h
        dsimp only at h
        cases h4 : matchNoGroupWildcard s.data with
        | some p =>
          rw [h4] at h
          dsimp only at h
          injection h with h'
          subst h'
          rfl
        | none =>
          rw [h4] at h
          dsimp only at h
          exact absurd h (by simp)

/-- Claim C6: parsing a synthesized name and re-synthesizing it with the
same registry info and the same eight-digit date version yields the same
string. Consistency of the inputs means: the pattern's platform version has
the grammar form 1.N, the chosen date version is eight digits, and when the
info carries a nodegroup that nodegroup is nonempty and hyphen-free. -/
theorem synthesize_parse_synthesize_idempotent
    (info : NodeClassInfo) (pattern : AMIPattern) (d : String)
    (hp : ∃ n, pattern.K8sVersion.data = '1' :: '.' :: n ∧ n ≠ [] ∧
      n.all Char.isDigit = true)
    (h8 : d.data.length = 8) (hd : d.data.all Char.isDigit = true)
    (hinfo : info.HasNodegroup = true →
      info.Nodegroup ≠ "" ∧ info.Nodegroup.data.all (fun c => c != '-') = true) :
    ∃ pattern', ParseAMIName (synthesizeAMI info pattern d) = .ok pattern'
      ∧ synthesizeAMI info pattern' d = synthesizeAMI info pattern d := by
  obtain ⟨n, hpn, hn, hnd⟩ := hp
  cases hng : info.HasNodegroup with
  | true =>
    obtain ⟨hne, hfree⟩ := hinfo hng
    have hgdata : info.Nodegroup.data ≠ [] := fun hc => hne (eq_empty_of_data_eq_nil hc)
    have hsyn : synthesizeAMI info pattern d
        = "domino-eks-" ++ info.Nodegroup ++ "-" ++ pattern.K8sVersion ++ "-v" ++ d := by
      simp [synthesizeAMI, hng]
    refine ⟨{ HasNodegroup := true, Nodegroup := info.Nodegroup,
              K8sVersion := pattern.K8sVersion, Version := d }, ?_, ?_⟩
    · rw [hsyn]
      exact parse_resolved_group hgdata hfree hpn hn hnd h8 hd
    · simp [synthesizeAMI, hng]
  | false =>
    have hsyn : synthesizeAMI info pattern d
        = "domino-eks-" ++ pattern.K8sVersion ++ "-v" ++ d := by
      simp [synthesizeAMI, hng]
    refine ⟨{ HasNodegroup := false, Nodegroup := "",
              K8sVersion := pattern.K8sVersion, Version := d }, ?_, ?_⟩
    · rw [hsyn]
      exact parse_resolved_nogroup hpn hn hnd h8 hd
    · simp [synthesizeAMI, hng]

/-- Witness for claim C6: a pending no-group pattern re-grouped by an
info carrying nodegroup gpu, at date version 20251001. -/
theorem synthesize_parse_synthesize_idempotent_witness :
    ∃ pattern', ParseAMIName
        (synthesizeAMI { HasNodegroup := true, Nodegroup := "gpu" }
          { HasNodegroup := false, Nodegroup := "", K8sVersion := "1.33", Version := "" }
          "20251001") = .ok pattern'
      ∧ synthesizeAMI { HasNodegroup := true, Nodegroup := "gpu" } pattern' "20251001"
        = synthesizeAMI { HasNodegroup := true, Nodegroup := "gpu" }
            { HasNodegroup := false, Nodegroup := "", K8sVersion := "1.33", Version := "" }
            "20251001" :=
  synthesize_parse_synthesize_idempotent
    { HasNodegroup := true, Nodegroup := "gpu" }
    { HasNodegroup := false, Nodegroup := "", K8sVersion := "1.33", Version := "" }
    "20251001" ⟨['3', '3'], rfl, by decide, by decide⟩ (by decide) (by decide)
    (fun _ => ⟨by decide, by decide⟩)

/-! ## Registry lookup through the BuildNodeClassMap fold -/

theorem buildMapAux_notmem (items : List EC2NodeClass)
    (m : String → Option NodeClassInfo) (name : String)
    (h : ∀ nc ∈ items, nc.Metadata.Name ≠ name) :
    items.foldl
      (fun m nc =>
        match nodeClassEntry nc with
        | none => m
        | some info => fun k => if k = nc.Metadata.Name then some info else m k)
      m name = m name := by
  induction items generalizing m with
  | nil => rfl
  | cons a rest ih =>
    simp only [List.foldl_cons]
    rw [ih _ (fun nc hnc => h nc (List.mem_cons_of_mem a hnc))]
    cases nodeClassEntry a with
    | none => rfl
    | some info =>
      dsimp only
      rw [if_neg]
      intro hc
      exact h a (List.mem_cons_self a rest) hc.symm

theorem buildMapAux_mem {items : List EC2NodeClass}
    (m : String → Option NodeClassInfo) {nc : EC2NodeClass} (hmem : nc ∈ items)
    (hnodup : (items.map (fun x => x.Metadata.Name)).Nodup)
    {info : NodeClassInfo} (hentry : nodeClassEntry nc = some info) :
    items.foldl
      (fun m nc =>
        match nodeClassEntry nc with
        | none => m
        | some info => fun k => if k = nc.Metadata.Name then some info else m k)
      m nc.Metadata.Name = some info := by
  induction items generalizing m with
  | nil => exact absurd hmem (List.not_mem_nil nc)
  | cons a rest ih =>
    simp only [List.map_cons, List.nodup_cons] at hnodup
    rcases List.mem_cons.mp hmem with rfl | hrest
    · simp only [List.foldl_cons]
      rw [buildMapAux_notmem]
      · rw [hentry]
        simp
      · intro x hx hc
        exact hnodup.1 (hc ▸ List.mem_map_of_mem (fun y => y.Metadata.Name) hx)
    · simp only [List.foldl_cons]
      exact ih _ hrest hnodup.2

/-- Registry lookup of a record present in a list with pairwise-distinct
names: the map yields exactly the entry computed from that record. -/
theorem BuildNodeClassMap_lookup {ncs : NodeClassList} {nc : EC2NodeClass}
    (hmem : nc ∈ ncs.Items)
    (hnodup : (ncs.Items.map (fun x => x.Metadata.Name)).Nodup)
    {info : NodeClassInfo} (hentry : nodeClassEntry nc = some info) :
    BuildNodeClassMap ncs nc.Metadata.Name = some info :=
  buildMapAux_mem _ hmem hnodup hentry

/-- Claim C5: re-entrancy of the plan. A record whose current image
reference is already resolved (parses through grammar case 1 or 2, that is
with a non-empty date version) and whose chosen date version equals the one
already in the name receives a ChangeItem whose new reference equals its
old reference, so re-application changes nothing at the string level. -/
theorem plan_reentrant (ncs : NodeClassList) (nc : EC2NodeClass)
    (hnodup : (ncs.Items.map (fun x => x.Metadata.Name)).Nodup)
    (hmem : nc ∈ ncs.Items)
    {t : AMISelectorTerm} {ts : List AMISelectorTerm}
    (hterms : nc.Spec.AMISelectorTerms = t :: ts)
    {pattern : AMIPattern} (hparse : ParseAMIName t.Name = .ok pattern)
    (hres : pattern.Version ≠ "") :
    planChange (BuildNodeClassMap ncs) pattern.Version nc
      = some { nodeclassName := nc.Metadata.Name, oldAMI := t.Name, newAMI := t.Name } := by
  obtain ⟨⟨n, hpn, hn, hnd⟩, h8, hd, hcase⟩ := ParseAMIName_ok_resolved hparse hres
  rcases hcase with ⟨hng, hne, hfree, hs⟩ | ⟨hng, hempty, hs⟩
  · have hentry : nodeClassEntry nc
        = some { HasNodegroup := true, Nodegroup := pattern.Nodegroup } := by
      simp [nodeClassEntry, hterms, hparse, hng]
    have hlook := BuildNodeClassMap_lookup hmem hnodup hentry
    have hsyn : synthesizeAMI { HasNodegroup := true, Nodegroup := pattern.Nodegroup }
        pattern pattern.Version = t.Name := by
      rw [hs]
      simp [synthesizeAMI]
    simp [planChange, hterms, hparse, hlook, hsyn]
  · have hentry : ∃ ng, nodeClassEntry nc
        = some { HasNodegroup := false, Nodegroup := ng } := by
      simp only [nodeClassEntry, hterms, hparse, hng]
      exact ⟨_, rfl⟩
    obtain ⟨ng, hentry⟩ := hentry
    have hlook := BuildNodeClassMap_lookup hmem hnodup hentry
    have hsyn : synthesizeAMI { HasNodegroup := false, Nodegroup := ng }
        pattern pattern.Version = t.Name := by
      rw [hs]
      simp [synthesizeAMI]
    simp [planChange, hterms, hparse, hlook, hsyn]

/-- Witness for claim C5: one already-resolved record, chosen date equal to
the one in the name. -/
theorem plan_reentrant_witness :
    planChange
      (BuildNodeClassMap
        { Items := [{ Metadata := { Name := "domino-eks-gpu" },
                      Spec := { AMISelectorTerms :=
                        [{ Name := "domino-eks-gpu-1.33-v20251001", Owner := "123" }] } }] })
      "20251001"
      { Metadata := { Name := "domino-eks-gpu" },
        Spec := { AMISelectorTerms :=
          [{ Name := "domino-eks-gpu-1.33-v20251001", Owner := "123" }] } }
      = some { nodeclassName := "domino-eks-gpu",
               oldAMI := "domino-eks-gpu-1.33-v20251001",
               newAMI := "domino-eks-gpu-1.33-v20251001" } :=
  plan_reentrant
    { Items := [{ Metadata := { Name := "domino-eks-gpu" },
                  Spec := { AMISelectorTerms :=
                    [{ Name := "domino-eks-gpu-1.33-v20251001", Owner := "123" }] } }] }
    { Metadata := { Name := "domino-eks-gpu" },
      Spec := { AMISelectorTerms :=
        [{ Name := "domino-eks-gpu-1.33-v20251001", Owner := "123" }] } }
    (by decide) (by decide) rfl (by rfl) (by decide)

/-- Claim C8: a record whose image parses without an explicit nodegroup and
whose node-class name does not split into at least three hyphen-separated
segments beginning domino, eks still receives a registry entry, with an
empty nodegroup string; BuildNodeClassMap has no error or warning channel
at all (it is a total function into a map), so the convention violation is
silent. -/
theorem registry_silent_on_convention_violation
    (ncs : NodeClassList) (nc : EC2NodeClass)
    (hnodup : (ncs.Items.map (fun x => x.Metadata.Name)).Nodup)
    (hmem : nc ∈ ncs.Items)
    {t : AMISelectorTerm} {ts : List AMISelectorTerm}
    (hterms : nc.Spec.AMISelectorTerms = t :: ts)
    {pattern : AMIPattern} (hparse : ParseAMIName t.Name = .ok pattern)
    (hng : pattern.HasNodegroup = false)
    (hbad : ¬ (3 ≤ (splitDash nc.Metadata.Name).length ∧
      (splitDash nc.Metadata.Name).take 2 = ["domino", "eks"])) :
    BuildNodeClassMap ncs nc.Metadata.Name
      = some { HasNodegroup := false, Nodegroup := "" } := by
  have hempty := ParseAMIName_ok_nogroup_empty hparse hng
  have hentry : nodeClassEntry nc = some { HasNodegroup := false, Nodegroup := "" } := by
    simp [nodeClassEntry, hterms, hparse, hng, hbad, hempty]
  exact BuildNodeClassMap_lookup hmem hnodup hentry

/-- Witness for claim C8: node class weird-name with wildcard image
domino-eks-1.33-*; its name splits into two segments only. -/
theorem registry_silent_on_convention_violation_witness :
    BuildNodeClassMap
      { Items := [{ Metadata := { Name := "weird-name" },
                    Spec := { AMISelectorTerms :=
                      [{ Name := "domino-eks-1.33-*", Owner := "123" }] } }] }
      "weird-name" = some { HasNodegroup := false, Nodegroup := "" } :=
  registry_silent_on_convention_violation
    { Items := [{ Metadata := { Name := "weird-name" },
                  Spec := { AMISelectorTerms :=
                    [{ Name := "domino-eks-1.33-*", Owner := "123" }] } }] }
    { Metadata := { Name := "weird-name" },
      Spec := { AMISelectorTerms :=
        [{ Name := "domino-eks-1.33-*", Owner := "123" }] } }
    (by decide) (by decide) rfl (by rfl) (by rfl) (by decide)

/-- Claim C1, counterexample: for the scenario record named domino-eks-gpu
with wildcard image domino-eks-1.33-*, the registry does infer nodegroup
gpu from the record name, but the planner's synthesized reference at chosen
date version 20251001 is domino-eks-1.33-v20251001, not the
domino-eks-gpu-1.33-v20251001 the claim asserts: the info's HasNodegroup
flag stays false (it is copied from the image pattern), so the synthesis
takes the no-nodegroup branch and the inferred group is never re-attached. -/
theorem group_inference_not_reattached_counterexample :
    BuildNodeClassMap
      { Items := [{ Metadata := { Name := "domino-eks-gpu" },
                    Spec := { AMISelectorTerms :=
                      [{ Name := "domino-eks-1.33-*", Owner := "123" }] } }] }
      "domino-eks-gpu" = some { HasNodegroup := false, Nodegroup := "gpu" }
    ∧ planChanges
        { Items := [{ Metadata := { Name := "domino-eks-gpu" },
                      Spec := { AMISelectorTerms :=
                        [{ Name := "domino-eks-1.33-*", Owner := "123" }] } }] }
        (BuildNodeClassMap
          { Items := [{ Metadata := { Name := "domino-eks-gpu" },
                        Spec := { AMISelectorTerms :=
                          [{ Name := "domino-eks-1.33-*", Owner := "123" }] } }] })
        "20251001"
      = [{ nodeclassName := "domino-eks-gpu", oldAMI := "domino-eks-1.33-*",
           newAMI := "domino-eks-1.33-v20251001" }]
    ∧ ("domino-eks-1.33-v20251001" : String) ≠ "domino-eks-gpu-1.33-v20251001" := by
  refine ⟨by decide, by decide, by decide⟩

/-- Claim C1, amended: for the record named domino-eks-gpu whose current
image reference is the group-less wildcard domino-eks-1.33-*, the registry
infers nodegroup gpu from the record's own name and stores it in the
entry's Nodegroup field, but the entry's HasNodegroup flag is false (taken
from the image pattern), so for every chosen date version d the planner's
synthesized new reference is domino-eks-1.33-v⟨d⟩: the inferred group is
not re-attached to the synthesized name. -/
theorem group_inference_stored_not_reattached (d : String) :
    BuildNodeClassMap
      { Items := [{ Metadata := { Name := "domino-eks-gpu" },
                    Spec := { AMISelectorTerms :=
                      [{ Name := "domino-eks-1.33-*", Owner := "123" }] } }] }
      "domino-eks-gpu" = some { HasNodegroup := false, Nodegroup := "gpu" }
    ∧ planChanges
        { Items := [{ Metadata := { Name := "domino-eks-gpu" },
                      Spec := { AMISelectorTerms :=
                        [{ Name := "domino-eks-1.33-*", Owner := "123" }] } }] }
        (BuildNodeClassMap
          { Items := [{ Metadata := { Name := "domino-eks-gpu" },
                        Spec := { AMISelectorTerms :=
                          [{ Name := "domino-eks-1.33-*", Owner := "123" }] } }] })
        d
      = [{ nodeclassName := "domino-eks-gpu", oldAMI := "domino-eks-1.33-*",
           newAMI := "domino-eks-1.33-v" ++ d }] :=
  ⟨by decide, rfl⟩

/-- Claim C2: the predicate that waitForNodeClaims hands to the convergence
monitor is claimed to return false (stop) on any tick at which every
fetched status has Drifted false; the source predicate instead returns
true unconditionally — its all-undrifted display branch ends in the
literal return true — so on an all-undrifted fetch it answers true, and
under the spec's monitor state machine the loop keeps fetching forever
(here: it consumes every one of n all-undrifted fetches instead of
stopping at the first). This contradicts the source's own documentation
(waitForNodeClaims waits for nodeclaims to become undrifted) and makes its
terminal all-undrifted success message unreachable. -/
theorem displayPredicate_never_stops :
    displayPredicate
      [{ Name := "node-1", NodeClass := "domino-eks-gpu", Age := 60,
         Drifted := false, Reason := "" }] = true
    ∧ ∀ fetchCount : Nat,
        monitorFetchCount displayPredicate
          (List.replicate fetchCount
            [{ Name := "node-1", NodeClass := "domino-eks-gpu", Age := 60,
               Drifted := false, Reason := "" }]) = fetchCount := by
  refine ⟨by decide, ?_⟩
  intro fetchCount
  induction fetchCount with
  | zero => rfl
  | succ k ih =>
    simp only [List.replicate_succ, monitorFetchCount]
    rw [if_pos (by decide)]
    omega

/-- Claim C9: the JSON navigation of UpdateNodeClass panics instead of
returning an error when the fetched object's spec.amiSelectorTerms is
empty or absent, or spec itself is absent: an out-of-range index on the
empty terms array, and failed type assertions on the nil interface a
missing key yields. The function's error return only covers the kubectl
invocations and the (un)marshalling around this navigation. -/
theorem updateNodeClass_panics_on_missing_terms :
    updateNodeClassJSON [("spec", .obj [("amiSelectorTerms", .arr [])])] "domino-eks-1.33-v20251001"
      = .goPanic "runtime error: index out of range [0] with length 0"
    ∧ updateNodeClassJSON [("spec", .obj [])] "domino-eks-1.33-v20251001"
      = .goPanic "interface conversion: interface is not []interface"
    ∧ updateNodeClassJSON [] "domino-eks-1.33-v20251001"
      = .goPanic "interface conversion: interface is not map[string]interface" :=
  ⟨rfl, rfl, rfl⟩

/-- Claim C10: the reconciler's with-nodegroup pattern uses an unrestricted
middle where the parser demands a hyphen-free group, so the catalog entry
named domino-eks-gpu-small-1.33-v20251001 is rejected by ParseAMIName with
a parse error yet counted by ExtractVersions, which turns it into the
version candidate 20251001. -/
theorem reconciler_accepts_what_parser_rejects :
    ParseAMIName "domino-eks-gpu-small-1.33-v20251001"
      = .error "invalid AMI name format: domino-eks-gpu-small-1.33-v20251001"
    ∧ matchedVersion "1.33" "domino-eks-gpu-small-1.33-v20251001" = some "20251001"
    ∧ ExtractVersions
        [{ Name := "domino-eks-gpu-small-1.33-v20251001", ImageID := "ami-1",
           CreationDate := "2025-10-01T00:00:00.000Z" }] "1.33"
      = .ok [{ Version := "20251001", Date := "2025-10-01 00:00" }] :=
  ⟨rfl, rfl, rfl⟩

/-! ## Go string order: basic theory of ltCharsb -/

theorem ltCharsb_irrefl (a : List Char) : ltCharsb a a = false := by
  induction a with
  | nil => rfl
  | cons c cs ih => simp [ltCharsb, ih]

theorem ltCharsb_trans {a b c : List Char} (h1 : ltCharsb a b = true)
    (h2 : ltCharsb b c = true) : ltCharsb a c = true := by
  induction a generalizing b c with
  | nil =>
    cases c with
    | nil =>
      cases b with
      | nil => exact absurd h2 (by simp [ltCharsb])
      | cons y ys => exact absurd h2 (by simp [ltCharsb])
    | cons z zs => rfl
  | cons x xs ih =>
    cases b with
    | nil => exact absurd h1 (by simp [ltCharsb])
    | cons y ys =>
      cases c with
      | nil => exact absurd h2 (by simp [ltCharsb])
      | cons z zs =>
        simp only [ltCharsb] at h1 h2 ⊢
        by_cases hxy : x < y
        · rw [if_pos hxy] at h1
          by_cases hyz : y < z
          · rw [if_pos (lt_trans hxy hyz)]
          · rw [if_neg hyz] at h2
            by_cases hzy : z < y
            · rw [if_pos hzy] at h2
              exact absurd h2 (by simp)
            · have : y = z := le_antisymm (not_lt.mp hzy) (not_lt.mp hyz)
              rw [if_pos (this ▸ hxy)]
        · rw [if_neg hxy] at h1
          by_cases hyx : y < x
          · rw [if_pos hyx] at h1
            exact absurd h1 (by simp)
          · have hxy_eq : x = y := le_antisymm (not_lt.mp hyx) (not_lt.mp hxy)
            rw [if_neg hyx] at h1
            by_cases hyz : y < z
            · rw [if_pos (hxy_eq ▸ hyz)]
            · rw [if_neg hyz] at h2
              by_cases hzy : z < y
              · rw [if_pos hzy] at h2
                exact absurd h2 (by simp)
              · have hyz_eq : y = z := le_antisymm (not_lt.mp hzy) (not_lt.mp hyz)
                rw [if_neg hzy] at h2
                rw [if_neg (hxy_eq ▸ hyz), if_neg (hxy_eq ▸ hzy)]
                exact ih h1 h2

theorem ltCharsb_eq_of_not_lt {a b : List Char} (h1 : ltCharsb a b = false)
    (h2 : ltCharsb b a = false) : a = b := by
  induction a generalizing b with
  | nil =>
    cases b with
    | nil => rfl
    | cons y ys => exact absurd h1 (by simp [ltCharsb])
  | cons x xs ih =>
    cases b with
    | nil => exact absurd h2 (by simp [ltCharsb])
    | cons y ys =>
      simp only [ltCharsb] at h1 h2
      by_cases hxy : x < y
      · rw [if_pos hxy] at h1
        exact absurd h1 (by simp)
      · by_cases hyx : y < x
        · rw [if_pos hyx] at h2
          exact absurd h2 (by simp)
        · have hx : x = y := le_antisymm (not_lt.mp hyx) (not_lt.mp hxy)
          rw [if_neg hxy, if_neg hyx] at h1
          rw [if_neg hyx, if_neg (hx ▸ hxy)] at h2
          rw [hx, ih h1 h2]

theorem ltCharsb_asymm {a b : List Char} (h : ltCharsb a b = true) :
    ltCharsb b a = false := by
  cases hba : ltCharsb b a with
  | false => rfl
  | true =>
    have := ltCharsb_trans h hba
    rw [ltCharsb_irrefl] at this
    exact absurd this (by simp)

/-- Transitivity of the complement order: c at most b and b at most a give
c at most a. -/
theorem ltCharsb_not_lt_trans {a b c : List Char} (h1 : ltCharsb a b = false)
    (h2 : ltCharsb b c = false) : ltCharsb a c = false := by
  cases hac : ltCharsb a c with
  | false => rfl
  | true =>
    cases hcb : ltCharsb c b with
    | true =>
      have hab := ltCharsb_trans hac hcb
      rw [hab] at h1
      exact absurd h1 (by simp)
    | false =>
      have hbc_eq : b = c := ltCharsb_eq_of_not_lt h2 hcb
      rw [← hbc_eq] at hac
      rw [hac] at h1
      exact absurd h1 (by simp)

theorem goStrLt_irrefl (a : String) : goStrLt a a = false := ltCharsb_irrefl a.data

theorem goStrLt_asymm {a b : String} (h : goStrLt a b = true) : goStrLt b a = false :=
  ltCharsb_asymm h

theorem goStrLt_not_lt_trans {a b c : String} (h1 : goStrLt a b = false)
    (h2 : goStrLt b c = false) : goStrLt a c = false :=
  ltCharsb_not_lt_trans h1 h2

theorem goStrLt_eq_of_not_lt {a b : String} (h1 : goStrLt a b = false)
    (h2 : goStrLt b a = false) : a = b :=
  data_inj (ltCharsb_eq_of_not_lt h1 h2)

theorem goStrLt_total {a b : String} (h : a ≠ b) :
    goStrLt a b = true ∨ goStrLt b a = true := by
  cases hab : goStrLt a b with
  | true => exact Or.inl rfl
  | false =>
    cases hba : goStrLt b a with
    | true => exact Or.inr rfl
    | false => exact absurd (goStrLt_eq_of_not_lt hab hba) h

/-! ## The versionSet map of ExtractVersions -/

theorem mapGet_mapSet_self (m : List (String × String)) (k v : String) :
    mapGet (mapSet m k v) k = some v := by
  induction m with
  | nil => simp [mapSet, mapGet]
  | cons p rest ih =>
    rcases p with ⟨key, old⟩
    by_cases hk : key = k
    · simp [mapSet, mapGet, hk]
    · simp [mapSet, mapGet, hk, ih]

theorem mapGet_mapSet_other (m : List (String × String)) {k w : String} (v : String)
    (hne : w ≠ k) : mapGet (mapSet m k v) w = mapGet m w := by
  induction m with
  | nil =>
    simp only [mapSet, mapGet]
    rw [if_neg (fun h : k = w => hne h.symm)]
  | cons p rest ih =>
    rcases p with ⟨key, old⟩
    by_cases hk : key = k
    · subst hk
      simp only [mapSet, if_pos rfl, mapGet]
      rw [if_neg (fun h : key = w => hne h.symm), if_neg (fun h : key = w => hne h.symm)]
    · simp only [mapSet, if_neg hk, mapGet]
      by_cases hw : key = w
      · rw [if_pos hw, if_pos hw]
      · rw [if_neg hw, if_neg hw, ih]

theorem mapGet_none_iff (m : List (String × String)) (k : String) :
    mapGet m k = none ↔ k ∉ m.map Prod.fst := by
  induction m with
  | nil => simp [mapGet]
  | cons p rest ih =>
    rcases p with ⟨key, v⟩
    simp only [mapGet, List.map_cons, List.mem_cons]
    by_cases hk : key = k
    · rw [if_pos hk]
      simp [hk]
    · rw [if_neg hk, ih]
      constructor
      · intro h
        rintro (hkey | hmem)
        · exact hk hkey.symm
        · exact h hmem
      · exact fun h hmem => h (Or.inr hmem)

theorem mapSet_fst (m : List (String × String)) (k v : String) :
    (mapSet m k v).map Prod.fst
      = if k ∈ m.map Prod.fst then m.map Prod.fst else m.map Prod.fst ++ [k] := by
  induction m with
  | nil => simp [mapSet]
  | cons p rest ih =>
    rcases p with ⟨key, old⟩
    by_cases hk : key = k
    · subst hk
      have h1 : mapSet ((key, old) :: rest) key v = (key, v) :: rest := by
        simp [mapSet]
      rw [h1]
      simp only [List.map_cons]
      rw [if_pos (List.mem_cons_self _ _)]
    · simp only [mapSet, if_neg hk, List.map_cons]
      rw [ih]
      simp only [List.mem_cons]
      by_cases hmem : k ∈ rest.map Prod.fst
      · rw [if_pos hmem, if_pos (Or.inr hmem)]
      · have hnot : ¬ (k = key ∨ k ∈ rest.map Prod.fst) := by
          rintro (hkey | hm)
          · exact hk hkey.symm
          · exact hmem hm
        rw [if_neg hmem, if_neg hnot]
        rfl

theorem nodup_mapSet (m : List (String × String)) (k v : String)
    (h : (m.map Prod.fst).Nodup) : ((mapSet m k v).map Prod.fst).Nodup := by
  rw [mapSet_fst]
  by_cases hmem : k ∈ m.map Prod.fst
  · simpa [hmem] using h
  · simp only [if_neg hmem]
    rw [List.nodup_append]
    exact ⟨h, List.nodup_singleton k,
      fun a ha hak => hmem ((List.mem_singleton.mp hak) ▸ ha)⟩

theorem mem_iff_mapGet {m : List (String × String)} (hnd : (m.map Prod.fst).Nodup)
    (v d : String) : (v, d) ∈ m ↔ mapGet m v = some d := by
  induction m with
  | nil => simp [mapGet]
  | cons p rest ih =>
    rcases p with ⟨key, old⟩
    simp only [List.map_cons, List.nodup_cons] at hnd
    by_cases hk : key = v
    · subst hk
      have hg : mapGet ((key, old) :: rest) key = some old := by simp [mapGet]
      rw [List.mem_cons, hg]
      simp only [Option.some.injEq, Prod.mk.injEq]
      constructor
      · rintro (⟨-, rfl⟩ | hmem)
        · rfl
        · exact absurd (List.mem_map_of_mem Prod.fst hmem) hnd.1
      · rintro rfl
        exact Or.inl ⟨trivial, rfl⟩
    · rw [List.mem_cons]
      simp only [mapGet, if_neg hk, Prod.mk.injEq]
      rw [← ih hnd.2]
      constructor
      · rintro (⟨hv, -⟩ | hmem)
        · exact absurd hv.symm hk
        · exact hmem
      · exact Or.inr

theorem stepAMI_get (k8sVersion : String) (m : List (String × String)) (ami : AMIInfo)
    (v : String) :
    mapGet (stepAMI k8sVersion m ami) v = keepLatest k8sVersion v (mapGet m v) ami := by
  unfold stepAMI keepLatest
  cases hmv : matchedVersion k8sVersion ami.Name with
  | none =>
    dsimp only
    rw [if_neg (by simp)]
  | some w =>
    dsimp only
    by_cases hwv : w = v
    · subst hwv
      rw [if_pos rfl]
      cases hget : mapGet m w with
      | none =>
        dsimp only
        rw [mapGet_mapSet_self]
      | some e =>
        dsimp only
        by_cases hlt : goStrLt e ami.CreationDate = true
        · rw [if_pos hlt, if_pos hlt, mapGet_mapSet_self]
        · rw [if_neg hlt, if_neg hlt, hget]
    · rw [if_neg (by simp [hwv])]
      cases hget : mapGet m w with
      | none =>
        dsimp only
        exact mapGet_mapSet_other m ami.CreationDate (fun h => hwv h.symm)
      | some e =>
        dsimp only
        by_cases hlt : goStrLt e ami.CreationDate = true
        · rw [if_pos hlt]
          exact mapGet_mapSet_other m ami.CreationDate (fun h => hwv h.symm)
        · rw [if_neg hlt]

theorem buildVS_fold_get (k8sVersion : String) (amis : List AMIInfo)
    (m : List (String × String)) (v : String) :
    mapGet (amis.foldl (stepAMI k8sVersion) m) v
      = amis.foldl (keepLatest k8sVersion v) (mapGet m v) := by
  induction amis generalizing m with
  | nil => rfl
  | cons a rest ih =>
    simp only [List.foldl_cons]
    rw [ih, stepAMI_get]

theorem buildVersionSet_get (k8sVersion : String) (amis : List AMIInfo) (v : String) :
    mapGet (buildVersionSet k8sVersion amis) v
      = amis.foldl (keepLatest k8sVersion v) none := by
  unfold buildVersionSet
  rw [buildVS_fold_get]
  rfl

theorem keepLatest_fold_none_iff (k8sVersion v : String) (amis : List AMIInfo)
    (acc : Option String) :
    amis.foldl (keepLatest k8sVersion v) acc = none
      ↔ acc = none ∧ ∀ ami ∈ amis, matchedVersion k8sVersion ami.Name ≠ some v := by
  induction amis generalizing acc with
  | nil => simp
  | cons a rest ih =>
    simp only [List.foldl_cons, List.mem_cons]
    rw [ih]
    unfold keepLatest
    by_cases hm : matchedVersion k8sVersion a.Name = some v
    · rw [if_pos hm]
      constructor
      · rintro ⟨hacc, -⟩
        cases acc with
        | none => exact absurd hacc (by simp)
        | some e =>
          dsimp only at hacc
          by_cases hlt : goStrLt e a.CreationDate = true
          · rw [if_pos hlt] at hacc
            exact absurd hacc (by simp)
          · rw [if_neg hlt] at hacc
            exact absurd hacc (by simp)
      · rintro ⟨-, hall⟩
        exact absurd hm (hall a (Or.inl rfl))
    · rw [if_neg hm]
      constructor
      · rintro ⟨hacc, hall⟩
        refine ⟨hacc, ?_⟩
        rintro ami (rfl | hmem)
        · exact hm
        · exact hall ami hmem
      · rintro ⟨hacc, hall⟩
        exact ⟨hacc, fun ami hmem => hall ami (Or.inr hmem)⟩

theorem keepLatest_fold_sound (k8sVersion v : String) (amis : List AMIInfo)
    (acc : Option String) {dmax : String}
    (h : amis.foldl (keepLatest k8sVersion v) acc = some dmax) :
    (acc = some dmax
      ∨ ∃ ami ∈ amis, matchedVersion k8sVersion ami.Name = some v
          ∧ ami.CreationDate = dmax)
    ∧ (∀ ami ∈ amis, matchedVersion k8sVersion ami.Name = some v →
        goStrLt dmax ami.CreationDate = false)
    ∧ (∀ e, acc = some e → goStrLt dmax e = false) := by
  induction amis generalizing acc with
  | nil =>
    simp only [List.foldl_nil] at h
    refine ⟨Or.inl h, by simp, ?_⟩
    intro e he
    rw [he] at h
    injection h with h'
    rw [h']
    exact goStrLt_irrefl dmax
  | cons a rest ih =>
    simp only [List.foldl_cons] at h
    obtain ⟨hsrc, hbound, hacc⟩ := ih _ h
    have hstep : ∀ e, keepLatest k8sVersion v acc a = some e →
        (acc = some e ∨ (matchedVersion k8sVersion a.Name = some v ∧ a.CreationDate = e))
        ∧ (matchedVersion k8sVersion a.Name = some v → goStrLt e a.CreationDate = false)
        ∧ (∀ e₀, acc = some e₀ → goStrLt e e₀ = false) := by
      intro e he
      unfold keepLatest at he
      by_cases hm : matchedVersion k8sVersion a.Name = some v
      · rw [if_pos hm] at he
        cases acc with
        | none =>
          dsimp only at he
          injection he with he'
          exact ⟨Or.inr ⟨hm, he'⟩, fun _ => he' ▸ goStrLt_irrefl _, by simp⟩
        | some e₀ =>
          dsimp only at he
          by_cases hlt : goStrLt e₀ a.CreationDate = true
          · rw [if_pos hlt] at he
            injection he with he'
            refine ⟨Or.inr ⟨hm, he'⟩, fun _ => he' ▸ goStrLt_irrefl _, ?_⟩
            intro x hx
            injection hx with hx'
            rw [← he', ← hx']
            exact goStrLt_asymm hlt
          · rw [if_neg hlt] at he
            injection he with he'
            refine ⟨Or.inl (by rw [he']), fun _ => ?_, ?_⟩
            · rw [← he']
              simpa using hlt
            · intro x hx
              injection hx with hx'
              rw [← he', ← hx']
              exact goStrLt_irrefl e₀
      · rw [if_neg hm] at he
        refine ⟨Or.inl he, fun hc => absurd hc hm, ?_⟩
        intro x hx
        rw [hx] at he
        injection he with he'
        rw [he']
        exact goStrLt_irrefl e
    refine ⟨?_, ?_, ?_⟩
    · rcases hsrc with hacc' | ⟨ami, hmem, hma, hdate⟩
      · rcases (hstep dmax hacc').1 with h1 | ⟨h1, h2⟩
        · exact Or.inl h1
        · exact Or.inr ⟨a, List.mem_cons_self a rest, h1, h2⟩
      · exact Or.inr ⟨ami, List.mem_cons_of_mem a hmem, hma, hdate⟩
    · intro ami hmem hma
      rcases List.mem_cons.mp hmem with rfl | hmem'
      · cases hkl : keepLatest k8sVersion v acc ami with
        | none =>
          exfalso
          unfold keepLatest at hkl
          rw [if_pos hma] at hkl
          cases acc with
          | none => exact absurd hkl (by simp)
          | some e₀ =>
            dsimp only at hkl
            by_cases hlt : goStrLt e₀ ami.CreationDate = true
            · rw [if_pos hlt] at hkl
              exact absurd hkl (by simp)
            · rw [if_neg hlt] at hkl
              exact absurd hkl (by simp)
        | some e =>
          have he := hstep e hkl
          have hde : goStrLt dmax e = false := by
            rw [hkl] at hacc
            exact hacc e rfl
          exact goStrLt_not_lt_trans hde (he.2.1 hma)
      · exact hbound ami hmem' hma
    · intro e he
      cases hkl : keepLatest k8sVersion v acc a with
      | none =>
        exfalso
        unfold keepLatest at hkl
        by_cases hm : matchedVersion k8sVersion a.Name = some v
        · rw [if_pos hm, he] at hkl
          dsimp only at hkl
          by_cases hlt : goStrLt e a.CreationDate = true
          · rw [if_pos hlt] at hkl
            exact absurd hkl (by simp)
          · rw [if_neg hlt] at hkl
            exact absurd hkl (by simp)
        · rw [if_neg hm, he] at hkl
          exact absurd hkl (by simp)
      | some e₁ =>
        have hde : goStrLt dmax e₁ = false := by
          rw [hkl] at hacc
          exact hacc e₁ rfl
        exact goStrLt_not_lt_trans hde ((hstep e₁ hkl).2.2 e he)

theorem foldl_stepAMI_id (k8sVersion : String) (amis : List AMIInfo)
    (m : List (String × String))
    (hall : ∀ ami ∈ amis, matchedVersion k8sVersion ami.Name = none) :
    amis.foldl (stepAMI k8sVersion) m = m := by
  induction amis generalizing m with
  | nil => rfl
  | cons a rest ih =>
    simp only [List.foldl_cons]
    have hstep : stepAMI k8sVersion m a = m := by
      unfold stepAMI
      rw [hall a (List.mem_cons_self a rest)]
    rw [hstep]
    exact ih m (fun ami hmem => hall ami (List.mem_cons_of_mem a hmem))

theorem nodup_buildVersionSet_fst (k8sVersion : String) (amis : List AMIInfo) :
    ((buildVersionSet k8sVersion amis).map Prod.fst).Nodup := by
  unfold buildVersionSet
  have haux : ∀ (l : List AMIInfo) (m : List (String × String)),
      (m.map Prod.fst).Nodup → ((l.foldl (stepAMI k8sVersion) m).map Prod.fst).Nodup := by
    intro l
    induction l with
    | nil => exact fun m hm => hm
    | cons a rest ih =>
      intro m hm
      simp only [List.foldl_cons]
      refine ih _ ?_
      unfold stepAMI
      cases matchedVersion k8sVersion a.Name with
      | none => exact hm
      | some w =>
        dsimp only
        cases mapGet m w with
        | none => exact nodup_mapSet m w a.CreationDate hm
        | some e =>
          dsimp only
          by_cases hlt : goStrLt e a.CreationDate = true
          · rw [if_pos hlt]
            exact nodup_mapSet m w a.CreationDate hm
          · rw [if_neg hlt]
            exact hm
  exact haux amis [] (by simp)

/-! ## The descending sort of ExtractVersions -/

theorem insertVersionDesc_perm (x : VersionItem) (l : List VersionItem) :
    (insertVersionDesc x l).Perm (x :: l) := by
  induction l with
  | nil => exact List.Perm.refl _
  | cons y rest ih =>
    unfold insertVersionDesc
    by_cases hlt : goStrLt y.Version x.Version = true
    · rw [if_pos hlt]
    · rw [if_neg hlt]
      exact (List.Perm.cons y ih).trans (List.Perm.swap x y rest)

theorem sortVersionsDesc_perm (l : List VersionItem) : (sortVersionsDesc l).Perm l := by
  induction l with
  | nil => exact List.Perm.refl _
  | cons x rest ih =>
    unfold sortVersionsDesc
    exact (insertVersionDesc_perm x (sortVersionsDesc rest)).trans (List.Perm.cons x ih)

theorem pairwise_insertVersionDesc (x : VersionItem) {l : List VersionItem}
    (h : l.Pairwise (fun a b => goStrLt a.Version b.Version = false)) :
    (insertVersionDesc x l).Pairwise (fun a b => goStrLt a.Version b.Version = false) := by
  induction l with
  | nil => simp [insertVersionDesc]
  | cons y rest ih =>
    rw [List.pairwise_cons] at h
    obtain ⟨hy, hrest⟩ := h
    unfold insertVersionDesc
    by_cases hlt : goStrLt y.Version x.Version = true
    · rw [if_pos hlt]
      rw [List.pairwise_cons]
      refine ⟨?_, List.pairwise_cons.mpr ⟨hy, hrest⟩⟩
      intro z hz
      rcases List.mem_cons.mp hz with rfl | hz'
      · exact goStrLt_asymm hlt
      · exact goStrLt_not_lt_trans (goStrLt_asymm hlt) (hy z hz')
    · rw [if_neg hlt]
      rw [List.pairwise_cons]
      refine ⟨?_, ih hrest⟩
      intro z hz
      rcases List.mem_cons.mp ((insertVersionDesc_perm x rest).mem_iff.mp hz) with rfl | hz'
      · simpa using hlt
      · exact hy z hz'

theorem pairwise_sortVersionsDesc (l : List VersionItem) :
    (sortVersionsDesc l).Pairwise (fun a b => goStrLt a.Version b.Version = false) := by
  induction l with
  | nil => simp [sortVersionsDesc]
  | cons x rest ih =>
    unfold sortVersionsDesc
    exact pairwise_insertVersionDesc x ih

/-- Claim C4: when ExtractVersions succeeds it returns exactly one
candidate per distinct date version matched for the given platform
version; each candidate's displayed date is ParseDate of the greatest
creation-timestamp string (Go string order) among the catalog entries
sharing that date version; and the list is sorted strictly descending by
date-version string. -/
theorem extractVersions_correct (amis : List AMIInfo) (k8sVersion : String)
    {items : List VersionItem}
    (h : ExtractVersions amis k8sVersion = .ok items) :
    (items.map (fun it => it.Version)).Nodup
    ∧ (∀ v : String, (∃ it ∈ items, it.Version = v)
        ↔ ∃ ami ∈ amis, matchedVersion k8sVersion ami.Name = some v)
    ∧ (∀ it ∈ items, ∃ dmax : String,
        (∃ ami ∈ amis, matchedVersion k8sVersion ami.Name = some it.Version
          ∧ ami.CreationDate = dmax)
        ∧ (∀ ami ∈ amis, matchedVersion k8sVersion ami.Name = some it.Version →
            goStrLt dmax ami.CreationDate = false)
        ∧ it.Date = ParseDate dmax)
    ∧ items.Pairwise (fun a b => goStrLt b.Version a.Version = true) := by
  unfold ExtractVersions at h
  by_cases hemp : (buildVersionSet k8sVersion amis).isEmpty
  · rw [if_pos hemp] at h
    exact absurd h (by simp)
  · rw [if_neg hemp] at h
    injection h with hitems
    have hnodup := nodup_buildVersionSet_fst k8sVersion amis
    have hperm : items.Perm ((buildVersionSet k8sVersion amis).map
        (fun p => { Version := p.1, Date := ParseDate p.2 : VersionItem })) := by
      rw [← hitems]
      exact sortVersionsDesc_perm _
    have hmapver : ((buildVersionSet k8sVersion amis).map
        (fun p => { Version := p.1, Date := ParseDate p.2 : VersionItem })).map
          (fun it => it.Version)
        = (buildVersionSet k8sVersion amis).map Prod.fst := by
      rw [List.map_map]
      rfl
    have hnodupver : (items.map (fun it => it.Version)).Nodup := by
      refine (hperm.map (fun it => it.Version)).symm.nodup ?_
      rw [hmapver]
      exact hnodup
    refine ⟨hnodupver, ?_, ?_, ?_⟩
    · intro v
      constructor
      · rintro ⟨it, hit, rfl⟩
        have hit' := hperm.mem_iff.mp hit
        obtain ⟨p, hp, hfp⟩ := List.mem_map.mp hit'
        have hget : mapGet (buildVersionSet k8sVersion amis) it.Version = some p.2 := by
          rw [← mem_iff_mapGet hnodup]
          have : it.Version = p.1 := by rw [← hfp]
          rw [this]
          exact hp
        rw [buildVersionSet_get] at hget
        obtain ⟨hsrc, -, -⟩ := keepLatest_fold_sound _ _ _ _ hget
        rcases hsrc with hbad | hex
        · exact absurd hbad (by simp)
        · obtain ⟨ami, hmem, hma, -⟩ := hex
          exact ⟨ami, hmem, hma⟩
      · rintro ⟨ami, hmem, hma⟩
        cases hget : mapGet (buildVersionSet k8sVersion amis) v with
        | none =>
          rw [buildVersionSet_get, keepLatest_fold_none_iff] at hget
          exact absurd hma (hget.2 ami hmem)
        | some d =>
          have hpmem : (v, d) ∈ buildVersionSet k8sVersion amis :=
            (mem_iff_mapGet hnodup v d).mpr hget
          refine ⟨{ Version := v, Date := ParseDate d }, ?_, rfl⟩
          exact hperm.mem_iff.mpr (List.mem_map.mpr ⟨(v, d), hpmem, rfl⟩)
    · intro it hit
      have hit' := hperm.mem_iff.mp hit
      obtain ⟨p, hp, hfp⟩ := List.mem_map.mp hit'
      have hver : it.Version = p.1 := by rw [← hfp]
      have hdate : it.Date = ParseDate p.2 := by rw [← hfp]
      have hget : mapGet (buildVersionSet k8sVersion amis) it.Version = some p.2 := by
        rw [← mem_iff_mapGet hnodup, hver]
        exact hp
      rw [buildVersionSet_get] at hget
      obtain ⟨hsrc, hbound, -⟩ := keepLatest_fold_sound _ _ _ _ hget
      rcases hsrc with hbad | hex
      · exact absurd hbad (by simp)
      · exact ⟨p.2, hex, hbound, hdate⟩
    · have hle : items.Pairwise (fun a b => goStrLt a.Version b.Version = false) := by
        rw [← hitems]
        exact pairwise_sortVersionsDesc _
      have hne : items.Pairwise (fun a b => a.Version ≠ b.Version) :=
        List.pairwise_map.mp hnodupver
      refine (hle.and hne).imp ?_
      rintro a b ⟨h1, h2⟩
      rcases goStrLt_total h2 with hab | hba
      · rw [hab] at h1
        exact absurd h1 (by simp)
      · exact hba

/-- Witness for claim C4: a catalog holding a duplicated date version under
two creation timestamps (the later one winning), a second date version,
and a non-matching entry. -/
theorem extractVersions_correct_witness :
    (([{ Version := "20251001", Date := "2025-10-02 00:00" },
       { Version := "20250901", Date := "2025-09-01 00:00" }] : List VersionItem).map
        (fun it => it.Version)).Nodup
    ∧ (∀ v : String,
        (∃ it ∈ ([{ Version := "20251001", Date := "2025-10-02 00:00" },
                  { Version := "20250901", Date := "2025-09-01 00:00" }] : List VersionItem),
          it.Version = v)
        ↔ ∃ ami ∈ [{ Name := "domino-eks-1.33-v20251001", ImageID := "ami-a",
                     CreationDate := "2025-10-01T00:00:00.000Z" },
                   { Name := "domino-eks-gpu-1.33-v20251001", ImageID := "ami-b",
                     CreationDate := "2025-10-02T00:00:00.000Z" },
                   { Name := "domino-eks-1.33-v20250901", ImageID := "ami-c",
                     CreationDate := "2025-09-01T00:00:00.000Z" },
                   ({ Name := "other", ImageID := "ami-d", CreationDate := "x" } : AMIInfo)],
            matchedVersion "1.33" ami.Name = some v)
    ∧ (∀ it ∈ ([{ Version := "20251001", Date := "2025-10-02 00:00" },
                { Version := "20250901", Date := "2025-09-01 00:00" }] : List VersionItem),
        ∃ dmax : String,
          (∃ ami ∈ [{ Name := "domino-eks-1.33-v20251001", ImageID := "ami-a",
                      CreationDate := "2025-10-01T00:00:00.000Z" },
                    { Name := "domino-eks-gpu-1.33-v20251001", ImageID := "ami-b",
                      CreationDate := "2025-10-02T00:00:00.000Z" },
                    { Name := "domino-eks-1.33-v20250901", ImageID := "ami-c",
                      CreationDate := "2025-09-01T00:00:00.000Z" },
                    ({ Name := "other", ImageID := "ami-d", CreationDate := "x" } : AMIInfo)],
            matchedVersion "1.33" ami.Name = some it.Version ∧ ami.CreationDate = dmax)
          ∧ (∀ ami ∈ [{ Name := "domino-eks-1.33-v20251001", ImageID := "ami-a",
                        CreationDate := "2025-10-01T00:00:00.000Z" },
                      { Name := "domino-eks-gpu-1.33-v20251001", ImageID := "ami-b",
                        CreationDate := "2025-10-02T00:00:00.000Z" },
                      { Name := "domino-eks-1.33-v20250901", ImageID := "ami-c",
                        CreationDate := "2025-09-01T00:00:00.000Z" },
                      ({ Name := "other", ImageID := "ami-d", CreationDate := "x" } : AMIInfo)],
              matchedVersion "1.33" ami.Name = some it.Version →
                goStrLt dmax ami.CreationDate = false)
          ∧ it.Date = ParseDate dmax)
    ∧ ([{ Version := "20251001", Date := "2025-10-02 00:00" },
        { Version := "20250901", Date := "2025-09-01 00:00" }] : List VersionItem).Pairwise
        (fun a b => goStrLt b.Version a.Version = true) :=
  extractVersions_correct
    [{ Name := "domino-eks-1.33-v20251001", ImageID := "ami-a",
       CreationDate := "2025-10-01T00:00:00.000Z" },
     { Name := "domino-eks-gpu-1.33-v20251001", ImageID := "ami-b",
       CreationDate := "2025-10-02T00:00:00.000Z" },
     { Name := "domino-eks-1.33-v20250901", ImageID := "ami-c",
       CreationDate := "2025-09-01T00:00:00.000Z" },
     { Name := "other", ImageID := "ami-d", CreationDate := "x" }] "1.33" (by rfl)

/-- Claim C7: ExtractVersions returns the ReconcileError value (message:
no matching AMI versions found) exactly when no catalog entry matches
either resolved-name pattern for the requested platform version, and a
successful result is never the empty candidate list. -/
theorem extractVersions_error_iff (amis : List AMIInfo) (k8sVersion : String) :
    (ExtractVersions amis k8sVersion = .error "no matching AMI versions found"
      ↔ ∀ ami ∈ amis, matchedVersion k8sVersion ami.Name = none)
    ∧ (∀ items, ExtractVersions amis k8sVersion = .ok items → items ≠ []) := by
  have hempiff : buildVersionSet k8sVersion amis = []
      ↔ ∀ ami ∈ amis, matchedVersion k8sVersion ami.Name = none := by
    constructor
    · intro hnil ami hmem
      cases hm : matchedVersion k8sVersion ami.Name with
      | none => rfl
      | some w =>
        have hget : mapGet (buildVersionSet k8sVersion amis) w = none := by
          rw [hnil]
          rfl
        rw [buildVersionSet_get, keepLatest_fold_none_iff] at hget
        exact absurd hm (hget.2 ami hmem)
    · intro hall
      exact foldl_stepAMI_id k8sVersion amis [] hall
  constructor
  · unfold ExtractVersions
    by_cases hemp : (buildVersionSet k8sVersion amis).isEmpty
    · rw [if_pos hemp]
      simp only [true_iff]
      exact hempiff.mp (List.isEmpty_iff.mp hemp)
    · rw [if_neg hemp]
      constructor
      · intro hc
        exact absurd hc (by simp)
      · intro hall
        exact absurd (hempiff.mpr hall) (by simpa [List.isEmpty_iff] using hemp)
  · intro items hok
    unfold ExtractVersions at hok
    by_cases hemp : (buildVersionSet k8sVersion amis).isEmpty
    · rw [if_pos hemp] at hok
      exact absurd hok (by simp)
    · rw [if_neg hemp] at hok
      injection hok with hitems
      intro hnil
      have hlen : items.length = (buildVersionSet k8sVersion amis).length := by
        rw [← hitems]
        rw [(sortVersionsDesc_perm _).length_eq, List.length_map]
      rw [hnil] at hlen
      have : buildVersionSet k8sVersion amis = [] := by
        cases hbv : buildVersionSet k8sVersion amis with
        | nil => rfl
        | cons p rest =>
          rw [hbv] at hlen
          exact absurd hlen.symm (by simp)
      exact absurd this (by simpa [List.isEmpty_iff] using hemp)

/-- Witness for claim C7: a singleton catalog whose only entry does not
match, yielding the error, and a matching singleton catalog, yielding a
non-empty list. -/
theorem extractVersions_error_iff_witness :
    ((ExtractVersions [{ Name := "other", ImageID := "ami-d", CreationDate := "x" }] "1.33"
        = .error "no matching AMI versions found"
      ↔ ∀ ami ∈ [({ Name := "other", ImageID := "ami-d", CreationDate := "x" } : AMIInfo)],
          matchedVersion "1.33" ami.Name = none)
    ∧ (∀ items, ExtractVersions [{ Name := "other", ImageID := "ami-d", CreationDate := "x" }]
        "1.33" = .ok items → items ≠ []))
    ∧ ((ExtractVersions [{ Name := "domino-eks-1.33-v20251001", ImageID := "ami-a", CreationDate := "2025-10-01T00:00:00.000Z" }] "1.33"
        = .error "no matching AMI versions found"
      ↔ ∀ ami ∈ [({ Name := "domino-eks-1.33-v20251001", ImageID := "ami-a", CreationDate := "2025-10-01T00:00:00.000Z" } : AMIInfo)],
          matchedVersion "1.33" ami.Name = none)
    ∧ (∀ items, ExtractVersions [{ Name := "domino-eks-1.33-v20251001", ImageID := "ami-a", CreationDate := "2025-10-01T00:00:00.000Z" }] "1.33" = .ok items → items ≠ [])) :=
  ⟨extractVersions_error_iff [{ Name := "other", ImageID := "ami-d", CreationDate := "x" }]
      "1.33",
   extractVersions_error_iff [{ Name := "domino-eks-1.33-v20251001", ImageID := "ami-a", CreationDate := "2025-10-01T00:00:00.000Z" }] "1.33"⟩
